import Mathlib

/-!
A verification development for the durable execution engine: a shallow
embedding of the engine core (step key generator, storage layer, workflow
context, the `Step` memoization primitive and `Engine.Execute`) as pure
Lean functions over an explicit database state, together with theorems
about the engine's memoization, keying and error-handling behavior.

The SQLite-backed storage layer is modelled as explicit lists mirroring
the `workflows` and `steps` tables; each storage method is translated to
a pure state transformer with the same observable behavior as its SQL
statement (insert-or-ignore, update-where, on-conflict upsert, aggregate
max).  Transient SQLite busy errors (which the source retries internally
and which depend on the environment, not on the program state) are out of
scope, so storage operations are modelled as total functions.
-/

/-! ## Decimal rendering (the `%d` format verb used by `fmt.Sprintf`) -/

/-- The decimal digit characters produced by `%d`. -/
def digitOf (n : Nat) : Char :=
  match n with
  | 0 => '0' | 1 => '1' | 2 => '2' | 3 => '3' | 4 => '4'
  | 5 => '5' | 6 => '6' | 7 => '7' | 8 => '8' | 9 => '9'
  | _ => '*'

/-- Numeric value of a decimal digit character. -/
def digitVal (c : Char) : Nat := c.toNat - 48

/-- Decimal digit list of a natural number, most significant first,
with explicit recursion fuel (a digit count bound). -/
def natDigitsF : Nat → Nat → List Char
  | 0, _ => []
  | fuel + 1, n =>
    if n < 10 then [digitOf n]
    else natDigitsF fuel (n / 10) ++ [digitOf (n % 10)]

/-- Decimal digit list of a natural number, most significant first
(the output of `%d` on a non-negative integer); `n + 1` units of fuel
always suffice since `n < 10 ^ (n + 1)`. -/
def natDigits (n : Nat) : List Char := natDigitsF (n + 1) n

/-- Decimal rendering of an `int64` by `%d`: optional minus sign followed
by the digits of the absolute value. -/
def intDec (i : Int) : List Char :=
  if i < 0 then '-' :: natDigits (-i).toNat else natDigits i.toNat

/-- `generateStepKey` creates a unique key combining step ID and sequence
number, format `"stepID:sequenceNum"` (translated from the source's
`fmt.Sprintf("%s:%d", stepID, sequenceNum)`). -/
def generateStepKey (stepID : String) (sequenceNum : Int) : String :=
  stepID ++ ":" ++ ⟨intDec sequenceNum⟩

/-! ## Codec

Modelled from the spec: the codec (§6.3) is Go's `encoding/json` in the
source, a library external to this repository.  The spec describes it as
"an injective encoding of user values to byte sequences and back", with
"a structured textual encoding" as the default.

Two layers are modelled.  `JVal` covers the atomic result types decoded
at their own Go types (null, booleans, integers, strings), which is the
value domain the engine machinery below is stated over.  Repository
workflow bodies also return composite results — structs, `[]string`, and
`map[string]interface{}` (the `get-metadata` step of the test suite) —
so `GoVal` below models the full JSON-native dynamic value domain
together with the decode behavior of `json.Unmarshal` into `interface{}`
positions, where every JSON number decodes as `float64`.  Numbers are
modelled at integral values (Go round-trips `float64` text exactly, so
fractional numbers are not where round-trip can fail; the failure mode
is the `int`-to-`float64` type change, which the model captures). -/

/-- A JSON value of the atomic kinds, decoded at their own types. -/
inductive JVal where
  | jnull : JVal
  | jbool : Bool → JVal
  | jint : Int → JVal
  | jstr : String → JVal
deriving DecidableEq

instance : Inhabited JVal := ⟨JVal.jnull⟩

/-- JSON escaping of a single character inside a string literal. -/
def escapeChar (c : Char) : List Char :=
  if c = '"' ∨ c = '\\' then ['\\', c] else [c]

/-- JSON escaping of a string body. -/
def escapeStr : List Char → List Char
  | [] => []
  | c :: cs => escapeChar c ++ escapeStr cs

/-- Scan a JSON string literal body up to the closing quote that must end
the input; undoes `escapeStr`. -/
def unescape : List Char → Option (List Char)
  | [] => none
  | c :: rest =>
    if c = '\\' then
      match rest with
      | [] => none
      | d :: rest2 => (unescape rest2).map (d :: ·)
    else if c = '"' then
      if rest.isEmpty then some [] else none
    else (unescape rest).map (c :: ·)

/-- Decimal digit test. -/
def isDig (c : Char) : Bool := decide ('0' ≤ c) && decide (c ≤ '9')

/-- Fold giving the numeric value of a digit list, most significant first. -/
def digitsVal (l : List Char) : Nat :=
  l.foldl (fun a c => 10 * a + digitVal c) 0

/-- Parse a non-empty all-digit list as a natural number. -/
def parseNat (l : List Char) : Option Nat :=
  if l ≠ [] ∧ l.all isDig then some (digitsVal l) else none

/-- Encode a JSON value as text. -/
def jsonEncode : JVal → String
  | .jnull => "null"
  | .jbool true => "true"
  | .jbool false => "false"
  | .jint i => ⟨intDec i⟩
  | .jstr s => ⟨'"' :: (escapeStr s.data ++ ['"'])⟩

/-- Decode a JSON text (as characters) back to a value. -/
def jsonDecodeL : List Char → Except String JVal
  | [] => .error "unexpected end of JSON input"
  | c :: rest =>
    if c = '"' then
      match unescape rest with
      | some content => .ok (.jstr ⟨content⟩)
      | none => .error "invalid string literal"
    else if c = '-' then
      match parseNat rest with
      | some n => .ok (.jint (-(n : Int)))
      | none => .error "invalid number literal"
    else if c :: rest = "null".data then .ok .jnull
    else if c :: rest = "true".data then .ok (.jbool true)
    else if c :: rest = "false".data then .ok (.jbool false)
    else
      match parseNat (c :: rest) with
      | some n => .ok (.jint (n : Int))
      | none => .error "invalid JSON value"

/-- Decode a JSON text back to a value. -/
def jsonDecode (s : String) : Except String JVal := jsonDecodeL s.data

/-! ### Dynamic (composite) values and the `interface` decode behavior

Modelled from the spec: Go values as passed through `encoding/json` when
the result type contains dynamic positions.  `gint` is a Go `int` in such
a position; `gnum` is a `float64` — the only number form `json.Unmarshal`
ever produces when decoding into `interface`-typed positions.  Arrays and
objects carry their own spine types so that all recursion is structural
over the mutual family; objects are ordered association sequences
(`json.Marshal` emits struct fields in declaration order and map keys in
sorted order, an ordering the model's values carry explicitly). -/

mutual
inductive GoVal where
  | gnull : GoVal
  | gbool : Bool → GoVal
  | gint : Int → GoVal
  | gnum : Int → GoVal
  | gstr : String → GoVal
  | garr : GoArr → GoVal
  | gobj : GoObj → GoVal

inductive GoArr where
  | anil : GoArr
  | acons : GoVal → GoArr → GoArr

inductive GoObj where
  | onil : GoObj
  | ocons : String → GoVal → GoObj → GoObj
end

/-- The left brace character (written by code point to keep brace
characters out of literals). -/
def lbrace : Char := '\x7b'

/-- The right brace character. -/
def rbrace : Char := '\x7d'

mutual
/-- `json.Marshal` of a dynamic value: `gint` and `gnum` of the same
number produce the same decimal text. -/
def goEncode : GoVal → List Char
  | .gnull => ['n', 'u', 'l', 'l']
  | .gbool true => ['t', 'r', 'u', 'e']
  | .gbool false => ['f', 'a', 'l', 's', 'e']
  | .gint i => intDec i
  | .gnum i => intDec i
  | .gstr s => '"' :: (escapeStr s.data ++ ['"'])
  | .garr .anil => ['[', ']']
  | .garr (.acons v tl) => '[' :: (goEncode v ++ goEncArr tl)
  | .gobj .onil => [lbrace, rbrace]
  | .gobj (.ocons k v tl) =>
      lbrace :: ('"' :: (escapeStr k.data ++ '"' :: ':' :: (goEncode v ++ goEncObj tl)))

/-- Continuation of an array encoding after one element: a comma-led
element each, then the closing bracket. -/
def goEncArr : GoArr → List Char
  | .anil => [']']
  | .acons v tl => ',' :: (goEncode v ++ goEncArr tl)

/-- Continuation of an object encoding after one member. -/
def goEncObj : GoObj → List Char
  | .onil => [rbrace]
  | .ocons k v tl =>
      ',' :: ('"' :: (escapeStr k.data ++ '"' :: ':' :: (goEncode v ++ goEncObj tl)))
end

mutual
/-- A value is canonical when it is in decoded form: every number is a
`float64` (`gnum`), never a Go `int` in a dynamic position. -/
def canonV : GoVal → Bool
  | .gint _ => false
  | .garr a => canonA a
  | .gobj o => canonO o
  | _ => true

def canonA : GoArr → Bool
  | .anil => true
  | .acons v tl => canonV v && canonA tl

def canonO : GoObj → Bool
  | .onil => true
  | .ocons _ v tl => canonV v && canonO tl
end

mutual
/-- Recursion budget a parse of an encoded value needs (bounded by the
text length). -/
def sizeV : GoVal → Nat
  | .garr .anil => 1
  | .garr (.acons v tl) => 1 + max (sizeV v) (sizeA tl)
  | .gobj .onil => 1
  | .gobj (.ocons _ v tl) => 1 + max (1 + sizeV v) (sizeO tl)
  | _ => 1

def sizeA : GoArr → Nat
  | .anil => 1
  | .acons v tl => 1 + max (sizeV v) (sizeA tl)

def sizeO : GoObj → Nat
  | .onil => 1
  | .ocons _ v tl => 1 + max (1 + sizeV v) (sizeO tl)
end

/-- Scan a string literal body up to its closing quote, returning the
unescaped content and the remaining input. -/
def scanStr : List Char → Option (List Char × List Char)
  | [] => none
  | c :: rest =>
    if c = '\\' then
      match rest with
      | [] => none
      | d :: rest2 => (scanStr rest2).map (fun p => (d :: p.1, p.2))
    else if c = '"' then some ([], rest)
    else (scanStr rest).map (fun p => (c :: p.1, p.2))

/-- Split a maximal run of decimal digits off the input. -/
def scanDigits : List Char → List Char × List Char
  | [] => ([], [])
  | c :: rest =>
    if isDig c then
      match scanDigits rest with
      | (ds, r2) => (c :: ds, r2)
    else ([], c :: rest)

/-- The input does not begin with a decimal digit (so a preceding number
scan stops before it). -/
def notDigStart : List Char → Prop
  | [] => True
  | c :: _ => isDig c = false

/-- Consume an expected literal tail (the remaining letters of `null`,
`true`, `false`), returning the rest of the input. -/
def dropLit : List Char → List Char → Option (List Char)
  | [], r => some r
  | _ :: _, [] => none
  | c :: cs, d :: r => if d = c then dropLit cs r else none

/-- The four mutually recursive parsers at one fuel level: one dynamic
value, an array continuation, one object member, an object
continuation. -/
structure GoParsers where
  pV : List Char → Option (GoVal × List Char)
  pA : List Char → Option (GoArr × List Char)
  pM : List Char → Option ((String × GoVal) × List Char)
  pO : List Char → Option (GoObj × List Char)

/-- One step of the recursive-descent parse of a dynamic JSON value;
mirrors `json.Unmarshal` into an `interface` position — in particular
every number parses as `float64` (`gnum`).  Recursive positions call the
lower-fuel parsers `ps`. -/
def goStepV (ps : GoParsers) : List Char → Option (GoVal × List Char)
  | [] => none
  | c :: rest =>
    if c = 'n' then (dropLit ['u', 'l', 'l'] rest).map (fun r => (.gnull, r))
    else if c = 't' then (dropLit ['r', 'u', 'e'] rest).map (fun r => (.gbool true, r))
    else if c = 'f' then (dropLit ['a', 'l', 's', 'e'] rest).map (fun r => (.gbool false, r))
    else if c = '"' then (scanStr rest).map (fun p => (.gstr ⟨p.1⟩, p.2))
    else if c = '[' then
      match rest with
      | [] => none
      | r0 :: r2 =>
        if r0 = ']' then some (.garr .anil, r2)
        else (ps.pV (r0 :: r2)).bind (fun p =>
          (ps.pA p.2).map (fun q => (.garr (.acons p.1 q.1), q.2)))
    else if c = lbrace then
      match rest with
      | [] => none
      | r0 :: r2 =>
        if r0 = rbrace then some (.gobj .onil, r2)
        else (ps.pM (r0 :: r2)).bind (fun p =>
          (ps.pO p.2).map (fun q => (.gobj (.ocons p.1.1 p.1.2 q.1), q.2)))
    else if c = '-' then
      if (scanDigits rest).1.isEmpty then none
      else some (.gnum (-(digitsVal (scanDigits rest).1 : Int)), (scanDigits rest).2)
    else if isDig c then
      some (.gnum ((digitsVal (scanDigits (c :: rest)).1 : Nat) : Int),
        (scanDigits (c :: rest)).2)
    else none

/-- One step of the array-continuation parse after one element:
comma-led elements up to the closing bracket. -/
def goStepA (ps : GoParsers) : List Char → Option (GoArr × List Char)
  | [] => none
  | c :: rest =>
    if c = ']' then some (.anil, rest)
    else if c = ',' then
      (ps.pV rest).bind (fun p => (ps.pA p.2).map (fun q => (.acons p.1 q.1, q.2)))
    else none

/-- One step of the object-member parse: quoted key, colon, value. -/
def goStepM (ps : GoParsers) : List Char → Option ((String × GoVal) × List Char)
  | [] => none
  | c :: rest =>
    if c = '"' then
      (scanStr rest).bind (fun p =>
        match p.2 with
        | [] => none
        | c2 :: r3 =>
          if c2 = ':' then (ps.pV r3).map (fun q => ((⟨p.1⟩, q.1), q.2))
          else none)
    else none

/-- One step of the object-continuation parse after one member. -/
def goStepO (ps : GoParsers) : List Char → Option (GoObj × List Char)
  | [] => none
  | c :: rest =>
    if c = rbrace then some (.onil, rest)
    else if c = ',' then
      (ps.pM rest).bind (fun p => (ps.pO p.2).map (fun q => (.ocons p.1.1 p.1.2 q.1, q.2)))
    else none

/-- Out of fuel: every parse fails. -/
def goNoParse : GoParsers :=
  ⟨fun _ => none, fun _ => none, fun _ => none, fun _ => none⟩

/-- The parser family, by recursion on the fuel. -/
def goParsers : Nat → GoParsers
  | 0 => goNoParse
  | fuel + 1 =>
    ⟨goStepV (goParsers fuel), goStepA (goParsers fuel),
     goStepM (goParsers fuel), goStepO (goParsers fuel)⟩

/-- Parse one dynamic JSON value. -/
def goParse (fuel : Nat) (l : List Char) : Option (GoVal × List Char) :=
  (goParsers fuel).pV l

/-- Parse the continuation of an array after one element. -/
def goParseArr (fuel : Nat) (l : List Char) : Option (GoArr × List Char) :=
  (goParsers fuel).pA l

/-- Parse one object member. -/
def goParseMem (fuel : Nat) (l : List Char) : Option ((String × GoVal) × List Char) :=
  (goParsers fuel).pM l

/-- Parse the continuation of an object after one member. -/
def goParseObj (fuel : Nat) (l : List Char) : Option (GoObj × List Char) :=
  (goParsers fuel).pO l

/-- `json.Marshal` as a string. -/
def goEncodeS (v : GoVal) : String := ⟨goEncode v⟩

/-- `json.Unmarshal` of a whole input into an `interface` position: the
parse must consume the entire text.  The fuel `length + 1` always
suffices, since a parse consumes at least one character per recursion
level. -/
def goDecode (s : String) : Except String GoVal :=
  match goParse (s.data.length + 1) s.data with
  | some (v, []) => .ok v
  | some (_, _ :: _) => .error "invalid character after top-level value"
  | none => .error "invalid JSON value"

/-- The `map[string]interface` value returned by the repository's
`get-metadata` workflow step (`map[string]interface{"key1": "value1",
"key2": 42}`, with `42` a Go `int`), in `json.Marshal`'s key order. -/
def metadataVal : GoVal :=
  .gobj (.ocons "key1" (.gstr "value1") (.ocons "key2" (.gint 42) .onil))

/-- What `json.Unmarshal` gives back for the metadata value: the same
object with the number as `float64`, not the original Go `int`. -/
def metadataValDecoded : GoVal :=
  .gobj (.ocons "key1" (.gstr "value1") (.ocons "key2" (.gnum 42) .onil))

/-! ## Storage layer (translated from `engine/storage.go`)

The `workflows` table is a list of `(workflow_id, status)` pairs and the
`steps` table a list of `StepRow`s, in insertion order.  Timestamp
columns and the surrogate `id` column are never read by the engine and
are omitted.  `retryOnBusy` and SQL driver failures are environment
behavior and out of scope: operations are total. -/

/-- One row of the `steps` table. -/
structure StepRow where
  workflow_id : String
  step_id : String
  sequence_num : Int
  step_key : String
  status : String
  output : Option String
  error : Option String
deriving DecidableEq

/-- The database state: the `workflows` and `steps` tables. -/
structure DB where
  workflows : List (String × String)
  steps : List StepRow
deriving DecidableEq

/-- The freshly created schema: both tables empty. -/
def emptyDB : DB := ⟨[], []⟩

/-- `CreateWorkflow`: `INSERT OR IGNORE` of a running workflow record. -/
def CreateWorkflow (db : DB) (workflowID : String) : DB :=
  if db.workflows.any (fun p => decide (p.1 = workflowID)) then db
  else { db with workflows := db.workflows ++ [(workflowID, "running")] }

/-- `GetWorkflowStatus`: exact lookup, "workflow not found" on no rows. -/
def GetWorkflowStatus (db : DB) (workflowID : String) : Except String String :=
  match db.workflows.find? (fun p => decide (p.1 = workflowID)) with
  | some p => .ok p.2
  | none => .error "workflow not found"

/-- `UpdateWorkflowStatus`: `UPDATE workflows SET status WHERE workflow_id`. -/
def UpdateWorkflowStatus (db : DB) (workflowID status : String) : DB :=
  { db with workflows :=
      db.workflows.map (fun p => if p.1 = workflowID then (p.1, status) else p) }

/-- `GetStep`: look up the step row at `(workflow_id, step_key)`; report a
hit with the stored output only when its status is `completed` (a `NULL`
output scans as empty bytes). -/
def GetStep (db : DB) (workflowID stepKey : String) : Option String :=
  match db.steps.find? (fun r => decide (r.workflow_id = workflowID ∧ r.step_key = stepKey)) with
  | none => none
  | some r => if r.status = "completed" then some (r.output.getD "") else none

/-- `MarkStepInProgress`: `INSERT ... ON CONFLICT(step_key) DO UPDATE SET
status = 'in_progress'`.  The uniqueness conflict is on `step_key` alone,
and the conflict arm updates only the status column. -/
def MarkStepInProgress (db : DB) (workflowID stepKey stepID : String) (sequenceNum : Int) : DB :=
  if db.steps.any (fun r => decide (r.step_key = stepKey)) then
    { db with steps :=
        db.steps.map (fun r => if r.step_key = stepKey then { r with status := "in_progress" } else r) }
  else
    { db with steps := db.steps ++ [⟨workflowID, stepID, sequenceNum, stepKey, "in_progress", none, none⟩] }

/-- `SaveStep`: `UPDATE steps SET status = 'completed', output = ? WHERE
workflow_id = ? AND step_key = ?`. -/
def SaveStep (db : DB) (workflowID stepKey output : String) : DB :=
  { db with steps :=
      db.steps.map (fun r =>
        if r.workflow_id = workflowID ∧ r.step_key = stepKey then
          { r with status := "completed", output := some output }
        else r) }

/-- `SaveStepError`: `UPDATE steps SET status = 'failed', error = ? WHERE
workflow_id = ? AND step_key = ?`. -/
def SaveStepError (db : DB) (workflowID stepKey errMsg : String) : DB :=
  { db with steps :=
      db.steps.map (fun r =>
        if r.workflow_id = workflowID ∧ r.step_key = stepKey then
          { r with status := "failed", error := some errMsg }
        else r) }

/-- `GetMaxSequenceNum`: `SELECT MAX(sequence_num) WHERE workflow_id`;
the SQL `MAX` is `NULL` on no rows, which scans as 0. -/
def GetMaxSequenceNum (db : DB) (workflowID : String) : Int :=
  match db.steps.filter (fun r => decide (r.workflow_id = workflowID)) with
  | [] => 0
  | r :: rs => rs.foldl (fun m x => max m x.sequence_num) r.sequence_num

/-- `LoadCompletedSteps`: the `step_key → output` map over completed rows
of the workflow.  The Go map is built by iterating rows in order with
overwrite, so the association list is built by prepending and queried by
first match. -/
def LoadCompletedSteps (db : DB) (workflowID : String) : List (String × String) :=
  db.steps.foldl
    (fun acc r =>
      if r.workflow_id = workflowID ∧ r.status = "completed" then
        (r.step_key, r.output.getD "") :: acc
      else acc) []

/-- `LoadStepIDMapping`: the `step_id → sequence_num` map over all rows of
the workflow, across all statuses. -/
def LoadStepIDMapping (db : DB) (workflowID : String) : List (String × Int) :=
  db.steps.foldl
    (fun acc r =>
      if r.workflow_id = workflowID then (r.step_id, r.sequence_num) :: acc
      else acc) []

/-! ## Workflow context and the `Step` primitive -/

/-- The execution context for a workflow (the mutex, storage handle and
errgroup of the source are not state observable by the claims; the model
is the sequential semantics of the mutex-guarded state). -/
structure Context where
  WorkflowID : String
  sequenceNum : Int
  completedSteps : List (String × String)
  stepIDToSeq : List (String × Int)
deriving DecidableEq

/-- `newContext`: hydrate a context from storage. -/
def newContext (workflowID : String) (db : DB) : Context :=
  { WorkflowID := workflowID
    sequenceNum := GetMaxSequenceNum db workflowID
    completedSteps := LoadCompletedSteps db workflowID
    stepIDToSeq := LoadStepIDMapping db workflowID }

/-- Step 1 of the `Step` protocol: reuse the sequence number bound to this
step ID, or draw a fresh one from the counter and record the binding. -/
def assignSeq (ctx : Context) (id : String) : Int × Bool × Context :=
  match List.lookup id ctx.stepIDToSeq with
  | some s => (s, false, ctx)
  | none =>
      (ctx.sequenceNum + 1, true,
        { ctx with
            sequenceNum := ctx.sequenceNum + 1
            stepIDToSeq := (id, ctx.sequenceNum + 1) :: ctx.stepIDToSeq })

/-- The outcome of one `Step` call: the returned value and error, the
updated database and context, and ghost observability fields — whether
the user body was invoked, whether the sequence number was freshly
assigned, and which sequence number the call used. -/
structure StepOut (T : Type) where
  val : T
  err : Option String
  db : DB
  ctx : Context
  invoked : Bool
  fresh : Bool
  seq : Int
deriving DecidableEq

/-- The `Step` primitive (translated from the source's generic
`Step[T any]`): sequence assignment, in-memory memo check, durable memo
check, in-progress marker, body execution, and persistence of the result
or the error.  `enc`/`dec` are the codec and `zero` the zero value of the
result type. -/
def Step {T : Type} (enc : T → String) (dec : String → Except String T) (zero : T)
    (db : DB) (ctx : Context) (id : String) (body : Unit → T × Option String) : StepOut T :=
  let a := assignSeq ctx id
  let seqNum := a.1
  let fresh := a.2.1
  let ctx1 := a.2.2
  let stepKey := generateStepKey id seqNum
  match List.lookup stepKey ctx1.completedSteps with
  | some cached =>
      match dec cached with
      | .error e =>
          ⟨zero, some ("failed to unmarshal cached result: " ++ e), db, ctx1, false, fresh, seqNum⟩
      | .ok result => ⟨result, none, db, ctx1, false, fresh, seqNum⟩
  | none =>
    match GetStep db ctx1.WorkflowID stepKey with
    | some output =>
        match dec output with
        | .error e =>
            ⟨zero, some ("failed to unmarshal database result: " ++ e), db, ctx1, false, fresh, seqNum⟩
        | .ok result =>
            ⟨result, none, db,
              { ctx1 with completedSteps := (stepKey, output) :: ctx1.completedSteps },
              false, fresh, seqNum⟩
    | none =>
      let db1 := MarkStepInProgress db ctx1.WorkflowID stepKey id seqNum
      match body () with
      | (_, some e) =>
          ⟨zero, some e, SaveStepError db1 ctx1.WorkflowID stepKey e, ctx1, true, fresh, seqNum⟩
      | (result, none) =>
          let output := enc result
          ⟨result, none, SaveStep db1 ctx1.WorkflowID stepKey output,
            { ctx1 with completedSteps := (stepKey, output) :: ctx1.completedSteps },
            true, fresh, seqNum⟩

/-- `Step` at the engine's codec and the JSON value domain. -/
def stepJ (db : DB) (ctx : Context) (id : String)
    (body : Unit → JVal × Option String) : StepOut JVal :=
  Step jsonEncode jsonDecode JVal.jnull db ctx id body

/-! ## Engine (translated from the source's `Engine.Execute`) -/

/-- Run a workflow procedure: a sequence of `Step` calls, stopping at the
first step error (the error is propagated out of the procedure, as the
repository's workflow functions do).  Also returns the list of step IDs
whose body was invoked. -/
def runProc (db : DB) (ctx : Context) :
    List (String × (Unit → JVal × Option String)) →
      Option String × DB × Context × List String
  | [] => (none, db, ctx, [])
  | (id, body) :: rest =>
    let out := stepJ db ctx id body
    match out.err with
    | some e => (some e, out.db, out.ctx, if out.invoked then [id] else [])
    | none =>
      match runProc out.db out.ctx rest with
      | (res, db2, ctx2, invs) => (res, db2, ctx2, (if out.invoked then [id] else []) ++ invs)

/-- `Engine.Execute`: create the workflow record, return success at once
if the workflow is already completed, otherwise hydrate a context, run
the procedure, and record the terminal status.  Returns the error (if
any), the final database, and the step IDs whose body was invoked. -/
def Execute (db : DB) (workflowID : String)
    (proc : List (String × (Unit → JVal × Option String))) :
    Option String × DB × List String :=
  let db1 := CreateWorkflow db workflowID
  match GetWorkflowStatus db1 workflowID with
  | .error e => (some ("failed to get workflow status: " ++ e), db1, [])
  | .ok status =>
    if status = "completed" then (none, db1, [])
    else
      match runProc db1 (newContext workflowID db1) proc with
      | (some e, db2, _, invs) =>
          (some ("workflow execution failed: " ++ e), UpdateWorkflowStatus db2 workflowID "failed", invs)
      | (none, db2, _, invs) =>
          (none, UpdateWorkflowStatus db2 workflowID "completed", invs)

/-! ## State invariants of the protocol -/

/-- The schema's uniqueness constraint on `step_key`. -/
def UniqueKeys (db : DB) : Prop :=
  db.steps.Pairwise (fun a b => a.step_key ≠ b.step_key)

/-- Well-formedness of an engine state for workflow `w`: the context
belongs to `w`, the step table satisfies the schema constraints and the
protocol's structural invariants, and the in-memory projections
(`stepIDToSeq`, `completedSteps`, the sequence counter) are coherent with
the durable rows. -/
structure GoodState (w : String) (db : DB) (ctx : Context) : Prop where
  wfid : ctx.WorkflowID = w
  uniq : UniqueKeys db
  owned : ∀ r ∈ db.steps, r.workflow_id = w
  keyed : ∀ r ∈ db.steps, r.step_key = generateStepKey r.step_id r.sequence_num
  outSome : ∀ r ∈ db.steps, r.status = "completed" → ∃ b, r.output = some b
  bound : ∀ r ∈ db.steps, List.lookup r.step_id ctx.stepIDToSeq = some r.sequence_num
  cache : ∀ k b, List.lookup k ctx.completedSteps = some b →
    ∃ r ∈ db.steps, r.step_key = k ∧ r.status = "completed" ∧ r.output = some b
  rowSeqLe : ∀ r ∈ db.steps, r.sequence_num ≤ ctx.sequenceNum
  bindSeqLe : ∀ id s, List.lookup id ctx.stepIDToSeq = some s → s ≤ ctx.sequenceNum

/-- A durably memoized step: the context maps `id` to `seq` and a
completed row for the derived step key stores output bytes that decode to
`v`. -/
structure MemoAt (w id : String) (seq : Int) (v : JVal) (db : DB) (ctx : Context) : Prop where
  bind : List.lookup id ctx.stepIDToSeq = some seq
  row : ∃ r ∈ db.steps, r.workflow_id = w ∧ r.step_id = id ∧ r.sequence_num = seq ∧
    r.step_key = generateStepKey id seq ∧ r.status = "completed" ∧
    ∃ b, r.output = some b ∧ jsonDecode b = .ok v

/-- A persisted sequence-number assignment: the context maps `id` to
`seq` and some durable row carries that assignment. -/
structure SeqAt (w id : String) (seq : Int) (db : DB) (ctx : Context) : Prop where
  bind : List.lookup id ctx.stepIDToSeq = some seq
  row : ∃ r ∈ db.steps, r.workflow_id = w ∧ r.step_id = id ∧ r.sequence_num = seq

/-- Engine states reachable from a given state by operations of workflow
`w`: further `Step` calls (in the same `Execute`), workflow-record
bookkeeping, and starting a subsequent `Execute` with a context freshly
hydrated from storage. -/
inductive Reach (w : String) : DB → Context → DB → Context → Prop where
  | refl (db : DB) (ctx : Context) : Reach w db ctx db ctx
  | step (db : DB) (ctx : Context) (db2 : DB) (ctx2 : Context) (id : String)
      (body : Unit → JVal × Option String) :
      Reach w (stepJ db ctx id body).db (stepJ db ctx id body).ctx db2 ctx2 →
      Reach w db ctx db2 ctx2
  | createWF (db : DB) (ctx : Context) (db2 : DB) (ctx2 : Context) :
      Reach w (CreateWorkflow db w) ctx db2 ctx2 →
      Reach w db ctx db2 ctx2
  | updateWF (db : DB) (ctx : Context) (db2 : DB) (ctx2 : Context) (status : String) :
      Reach w (UpdateWorkflowStatus db w status) ctx db2 ctx2 →
      Reach w db ctx db2 ctx2
  | rehydrate (db : DB) (ctx : Context) (db2 : DB) (ctx2 : Context) :
      Reach w db (newContext w db) db2 ctx2 →
      Reach w db ctx db2 ctx2

/-! ## Theorems -/

theorem digitOf_lt10 (n : Nat) (h : n < 10) :
    isDig (digitOf n) = true ∧ digitVal (digitOf n) = n := by
  interval_cases n <;> exact ⟨by decide, by decide⟩

theorem isDig_ne (c : Char) (h : isDig c = true) :
    c ≠ ':' ∧ c ≠ '-' ∧ c ≠ '"' := by
  refine ⟨?_, ?_, ?_⟩ <;> intro he <;> rw [he] at h <;> exact absurd h (by decide)

theorem natDigitsF_all_dig (fuel n : Nat) : ∀ c ∈ natDigitsF fuel n, isDig c = true := by
  induction fuel generalizing n with
  | zero => intro c hc; simp [natDigitsF] at hc
  | succ fuel ih =>
    intro c hc
    rw [natDigitsF] at hc
    split at hc
    · simp only [List.mem_singleton] at hc
      subst hc
      exact (digitOf_lt10 n (by omega)).1
    · rcases List.mem_append.mp hc with h1 | h2
      · exact ih _ c h1
      · simp only [List.mem_singleton] at h2
        subst h2
        exact (digitOf_lt10 _ (Nat.mod_lt _ (by omega))).1

theorem natDigits_all_dig (n : Nat) : ∀ c ∈ natDigits n, isDig c = true :=
  natDigitsF_all_dig _ _

theorem natDigits_ne_nil (n : Nat) : natDigits n ≠ [] := by
  rw [natDigits, natDigitsF]
  split
  · simp
  · simp

theorem digitsVal_append_digit (xs : List Char) (c : Char) :
    digitsVal (xs ++ [c]) = 10 * digitsVal xs + digitVal c := by
  simp [digitsVal, List.foldl_append]

theorem digitsVal_natDigitsF (fuel n : Nat) (h : n < 10 ^ fuel) :
    digitsVal (natDigitsF fuel n) = n := by
  induction fuel generalizing n with
  | zero =>
    simp only [pow_zero, Nat.lt_one_iff] at h
    subst h
    simp [natDigitsF, digitsVal]
  | succ fuel ih =>
    rw [natDigitsF]
    split
    · simp only [digitsVal, List.foldl_cons, List.foldl_nil]
      rw [(digitOf_lt10 n (by omega)).2]
      omega
    · rw [digitsVal_append_digit]
      have hdiv : n / 10 < 10 ^ fuel := by
        rw [Nat.div_lt_iff_lt_mul (by omega)]
        calc n < 10 ^ (fuel + 1) := h
        _ = 10 ^ fuel * 10 := by ring
      rw [ih _ hdiv, (digitOf_lt10 _ (Nat.mod_lt _ (by omega))).2]
      omega

theorem lt_ten_pow (n : Nat) : n < 10 ^ (n + 1) := by
  induction n with
  | zero => decide
  | succ k ih =>
    have h2 : 10 ^ (k + 1) ≤ 10 ^ (k + 2) := Nat.pow_le_pow_right (by omega) (by omega)
    omega

theorem digitsVal_natDigits (n : Nat) : digitsVal (natDigits n) = n :=
  digitsVal_natDigitsF _ _ (lt_ten_pow n)

theorem natDigits_inj {a b : Nat} (h : natDigits a = natDigits b) : a = b := by
  have := digitsVal_natDigits a
  rw [h, digitsVal_natDigits] at this
  omega

theorem intDec_mem_ne_colon (i : Int) : ∀ c ∈ intDec i, c ≠ ':' := by
  intro c hc
  unfold intDec at hc
  split at hc
  · rcases List.mem_cons.mp hc with h1 | h2
    · subst h1; decide
    · exact (isDig_ne c (natDigits_all_dig _ c h2)).1
  · exact (isDig_ne c (natDigits_all_dig _ c hc)).1

theorem intDec_inj {a b : Int} (h : intDec a = intDec b) : a = b := by
  unfold intDec at h
  by_cases ha : a < 0 <;> by_cases hb : b < 0
  · rw [if_pos ha, if_pos hb] at h
    have htail : natDigits (-a).toNat = natDigits (-b).toNat :=
      (List.cons_eq_cons.mp h).2
    have := natDigits_inj htail
    omega
  · rw [if_pos ha, if_neg hb] at h
    have hm : '-' ∈ natDigits b.toNat := by rw [← h]; exact List.mem_cons_self _ _
    exact absurd rfl (isDig_ne '-' (natDigits_all_dig _ '-' hm)).2.1
  · rw [if_neg ha, if_pos hb] at h
    have hm : '-' ∈ natDigits a.toNat := by rw [h]; exact List.mem_cons_self _ _
    exact absurd rfl (isDig_ne '-' (natDigits_all_dig _ '-' hm)).2.1
  · rw [if_neg ha, if_neg hb] at h
    have := natDigits_inj h
    omega

theorem colon_split :
    ∀ (a b d e : List Char), (∀ c ∈ d, c ≠ ':') → (∀ c ∈ e, c ≠ ':') →
      a ++ ':' :: d = b ++ ':' :: e → a = b ∧ d = e := by
  intro a
  induction a with
  | nil =>
    intro b d e hd he h
    cases b with
    | nil =>
      simp only [List.nil_append] at h
      exact ⟨rfl, (List.cons_eq_cons.mp h).2⟩
    | cons x xs =>
      simp only [List.nil_append, List.cons_append] at h
      obtain ⟨hx, hrest⟩ := List.cons_eq_cons.mp h
      exact absurd rfl
        (hd ':' (by rw [hrest]; exact List.mem_append_right _ (List.mem_cons_self _ _)))
  | cons x xs ih =>
    intro b d e hd he h
    cases b with
    | nil =>
      simp only [List.nil_append, List.cons_append] at h
      obtain ⟨hx, hrest⟩ := List.cons_eq_cons.mp h
      exact absurd rfl
        (he ':' (by rw [← hrest]; exact List.mem_append_right _ (List.mem_cons_self _ _)))
    | cons y ys =>
      simp only [List.cons_append] at h
      obtain ⟨hx, hrest⟩ := List.cons_eq_cons.mp h
      obtain ⟨h1, h2⟩ := ih ys d e hd he hrest
      exact ⟨by rw [hx, h1], h2⟩

theorem generateStepKey_data (s : String) (n : Int) :
    (generateStepKey s n).data = s.data ++ ':' :: intDec n := by
  show ((s ++ ":") ++ (⟨intDec n⟩ : String)).data = _
  rw [String.data_append, String.data_append]
  simp

theorem generateStepKey_inj {s1 s2 : String} {n1 n2 : Int}
    (h : generateStepKey s1 n1 = generateStepKey s2 n2) : s1 = s2 ∧ n1 = n2 := by
  have hd := congrArg String.data h
  rw [generateStepKey_data, generateStepKey_data] at hd
  obtain ⟨h1, h2⟩ :=
    colon_split _ _ _ _ (intDec_mem_ne_colon n1) (intDec_mem_ne_colon n2) hd
  exact ⟨String.ext h1, intDec_inj h2⟩

theorem unescape_escape (l : List Char) : unescape (escapeStr l ++ ['"']) = some l := by
  induction l with
  | nil => rfl
  | cons c cs ih =>
    by_cases hc : c = '"' ∨ c = '\\'
    · rw [escapeStr, escapeChar, if_pos hc]
      show unescape ('\\' :: c :: (escapeStr cs ++ ['"'])) = some (c :: cs)
      rw [unescape.eq_def]
      simp [ih]
    · rw [escapeStr, escapeChar, if_neg hc]
      show unescape (c :: (escapeStr cs ++ ['"'])) = some (c :: cs)
      rw [unescape.eq_def]
      push_neg at hc
      simp only [if_neg hc.2, if_neg hc.1]
      simp [ih]

theorem parseNat_natDigits (n : Nat) : parseNat (natDigits n) = some n := by
  rw [parseNat, if_pos, digitsVal_natDigits]
  exact ⟨natDigits_ne_nil n, List.all_eq_true.mpr (natDigits_all_dig n)⟩

theorem dig_ne_lits (c : Char) (rest : List Char) (h : isDig c = true) :
    c :: rest ≠ "null".data ∧ c :: rest ≠ "true".data ∧ c :: rest ≠ "false".data := by
  refine ⟨?_, ?_, ?_⟩ <;> intro he
  · rw [show ("null".data) = ['n', 'u', 'l', 'l'] from rfl] at he
    rw [(List.cons_eq_cons.mp he).1] at h
    exact absurd h (by decide)
  · rw [show ("true".data) = ['t', 'r', 'u', 'e'] from rfl] at he
    rw [(List.cons_eq_cons.mp he).1] at h
    exact absurd h (by decide)
  · rw [show ("false".data) = ['f', 'a', 'l', 's', 'e'] from rfl] at he
    rw [(List.cons_eq_cons.mp he).1] at h
    exact absurd h (by decide)

theorem decode_encode (v : JVal) : jsonDecode (jsonEncode v) = .ok v := by
  cases v with
  | jnull => rfl
  | jbool b => cases b <;> rfl
  | jint i =>
    show jsonDecodeL (intDec i) = _
    by_cases hi : i < 0
    · rw [show intDec i = '-' :: natDigits (-i).toNat by rw [intDec, if_pos hi]]
      rw [jsonDecodeL, if_neg (by decide), if_pos rfl, parseNat_natDigits]
      show Except.ok (JVal.jint (-(((-i).toNat : Nat) : Int))) = Except.ok (JVal.jint i)
      rw [Int.toNat_of_nonneg (by omega : (0 : Int) ≤ -i), neg_neg]
    · rw [show intDec i = natDigits i.toNat by rw [intDec, if_neg hi]]
      obtain ⟨c, rest, hl⟩ : ∃ c rest, natDigits i.toNat = c :: rest := by
        cases h : natDigits i.toNat with
        | nil => exact absurd h (natDigits_ne_nil _)
        | cons c rest => exact ⟨c, rest, rfl⟩
      have hdig : isDig c = true := natDigits_all_dig _ c (by rw [hl]; exact List.mem_cons_self _ _)
      have hne := isDig_ne c hdig
      have hlits := dig_ne_lits c rest hdig
      rw [hl, jsonDecodeL, if_neg hne.2.2, if_neg hne.2.1,
        if_neg hlits.1, if_neg hlits.2.1, if_neg hlits.2.2, ← hl, parseNat_natDigits]
      show Except.ok (JVal.jint ((i.toNat : Nat) : Int)) = Except.ok (JVal.jint i)
      rw [Int.toNat_of_nonneg (by omega : (0 : Int) ≤ i)]
  | jstr s =>
    show jsonDecodeL ('"' :: (escapeStr s.data ++ ['"'])) = _
    rw [jsonDecodeL, if_pos rfl, unescape_escape]

/-! ### Storage lemmas -/

theorem find_unique (w k : String) :
    ∀ (l : List StepRow), l.Pairwise (fun a b => a.step_key ≠ b.step_key) →
      ∀ r ∈ l, r.workflow_id = w → r.step_key = k →
        l.find? (fun x => decide (x.workflow_id = w ∧ x.step_key = k)) = some r := by
  intro l
  induction l with
  | nil => intro _ r hr; exact absurd hr (List.not_mem_nil r)
  | cons x xs ih =>
    intro hp r hr hw hk
    have hx := (List.pairwise_cons.mp hp).1
    have hxs := (List.pairwise_cons.mp hp).2
    rcases List.mem_cons.mp hr with h1 | h2
    · subst h1
      exact List.find?_cons_of_pos _ (by simp [hw, hk])
    · have hxk : ¬(x.workflow_id = w ∧ x.step_key = k) := by
        rintro ⟨_, hxk⟩
        exact hx r h2 (hxk.trans hk.symm)
      rw [List.find?_cons_of_neg _ (by simpa using hxk)]
      exact ih hxs r h2 hw hk

theorem GetStep_hit {db : DB} {w k : String} {r : StepRow} (hu : UniqueKeys db)
    (hr : r ∈ db.steps) (hw : r.workflow_id = w) (hk : r.step_key = k)
    (hst : r.status = "completed") :
    GetStep db w k = some (r.output.getD "") := by
  rw [GetStep, find_unique w k db.steps hu r hr hw hk]
  show (if r.status = "completed" then some (r.output.getD "") else none) = some (r.output.getD "")
  rw [if_pos hst]

theorem GetStep_some_elim {db : DB} {w k b : String} (h : GetStep db w k = some b) :
    ∃ r ∈ db.steps, r.workflow_id = w ∧ r.step_key = k ∧ r.status = "completed" ∧
      r.output.getD "" = b := by
  rw [GetStep] at h
  cases hf : db.steps.find? (fun x => decide (x.workflow_id = w ∧ x.step_key = k)) with
  | none => rw [hf] at h; exact absurd h (by simp)
  | some r =>
    rw [hf] at h
    have h2 : (if r.status = "completed" then some (r.output.getD "") else none) = some b := h
    have hm := List.mem_of_find?_eq_some hf
    have hp := List.find?_some hf
    simp only [decide_eq_true_eq] at hp
    by_cases hst : r.status = "completed"
    · rw [if_pos hst] at h2
      exact ⟨r, hm, hp.1, hp.2, hst, Option.some.inj h2⟩
    · rw [if_neg hst] at h2
      exact absurd h2 (by simp)

theorem CreateWorkflow_existing {db : DB} {w s : String}
    (h : GetWorkflowStatus db w = .ok s) : CreateWorkflow db w = db := by
  rw [GetWorkflowStatus] at h
  cases hf : db.workflows.find? (fun p => decide (p.1 = w)) with
  | none => rw [hf] at h; exact absurd h (by simp)
  | some p =>
    rw [CreateWorkflow, if_pos]
    rw [List.any_eq_true]
    exact ⟨p, List.mem_of_find?_eq_some hf, by simpa using List.find?_some hf⟩

/-! ### Claim C3 -/

/-- C3: the step key serialization is injective: equal `generateStepKey`
outputs force equal step IDs and equal sequence numbers, even when a step
ID contains the separator character `":"` (the decimal sequence component
can never contain `":"`, so the key parses unambiguously from the right).
-/
theorem stepKey_injective (stepID1 stepID2 : String) (seq1 seq2 : Int)
    (h : generateStepKey stepID1 seq1 = generateStepKey stepID2 seq2) :
    stepID1 = stepID2 ∧ seq1 = seq2 :=
  generateStepKey_inj h

theorem stepKey_injective_witness :
    ("pay:user" : String) = "pay:user" ∧ (7 : Int) = 7 :=
  stepKey_injective "pay:user" "pay:user" 7 7 rfl

/-! ### Claim C6 -/

/-- C6: only completed step records contribute to memoization: under the
schema's step-key uniqueness, `GetStep` reports a hit with the stored
output exactly when a record with that step key exists with status
`completed`; when the record is absent or `in_progress` or `failed`, it
reports not-found. -/
theorem getStep_completed_iff (db : DB) (w k : String) (hu : UniqueKeys db) :
    (∀ b, GetStep db w k = some b ↔
      ∃ r ∈ db.steps, r.workflow_id = w ∧ r.step_key = k ∧ r.status = "completed" ∧
        r.output.getD "" = b) ∧
    (GetStep db w k = none ↔
      ¬∃ r ∈ db.steps, r.workflow_id = w ∧ r.step_key = k ∧ r.status = "completed") := by
  constructor
  · intro b
    constructor
    · intro h
      exact GetStep_some_elim h
    · rintro ⟨r, hr, hw, hk, hst, hb⟩
      rw [← hb]
      exact GetStep_hit hu hr hw hk hst
  · constructor
    · rintro h ⟨r, hr, hw, hk, hst⟩
      rw [GetStep_hit hu hr hw hk hst] at h
      exact absurd h (by simp)
    · intro h
      cases hg : GetStep db w k with
      | none => rfl
      | some b =>
        obtain ⟨r, hr, hw, hk, hst, _⟩ := GetStep_some_elim hg
        exact absurd ⟨r, hr, hw, hk, hst⟩ h

theorem getStep_completed_iff_witness :
    GetStep ⟨[("w", "running")], [⟨"w", "a", 1, "a:1", "in_progress", none, none⟩]⟩ "w" "a:1" =
      none := by
  have h := getStep_completed_iff
    ⟨[("w", "running")], [⟨"w", "a", 1, "a:1", "in_progress", none, none⟩]⟩ "w" "a:1"
    (by constructor <;> simp)
  exact h.2.mpr (by rintro ⟨r, hr, hw, hk, hst⟩; simp at hr; rw [hr] at hst; simp at hst)

theorem map_id_of_eq {α : Type} (l : List α) (f : α → α) (h : ∀ a ∈ l, f a = a) :
    l.map f = l := by
  induction l with
  | nil => rfl
  | cons x xs ih =>
    rw [List.map_cons, h x (List.mem_cons_self x xs),
      ih (fun a ha => h a (List.mem_cons_of_mem _ ha))]

/-! ### Claim C10 -/

/-- C10: `SaveStep` and `SaveStepError` are updates of an existing record
only: when no step row with the given workflow ID and step key exists,
both leave the database entirely unchanged, so a completion (or failure)
can be durably recorded only after the in-progress marker inserted the
row. -/
theorem saveStep_update_only (db : DB) (w k outB msg : String)
    (h : ∀ r ∈ db.steps, ¬(r.workflow_id = w ∧ r.step_key = k)) :
    SaveStep db w k outB = db ∧ SaveStepError db w k msg = db := by
  constructor
  · rw [SaveStep, map_id_of_eq _ _ (fun r hr => by rw [if_neg (h r hr)])]
  · rw [SaveStepError, map_id_of_eq _ _ (fun r hr => by rw [if_neg (h r hr)])]

theorem saveStep_update_only_witness :
    SaveStep ⟨[("w", "running")], [⟨"w", "a", 1, "a:1", "in_progress", none, none⟩]⟩
        "w" "b:2" "out" =
      ⟨[("w", "running")], [⟨"w", "a", 1, "a:1", "in_progress", none, none⟩]⟩ ∧
    SaveStepError ⟨[("w", "running")], [⟨"w", "a", 1, "a:1", "in_progress", none, none⟩]⟩
        "w" "b:2" "boom" =
      ⟨[("w", "running")], [⟨"w", "a", 1, "a:1", "in_progress", none, none⟩]⟩ :=
  saveStep_update_only _ "w" "b:2" "out" "boom"
    (by intro r hr; simp at hr; rw [hr]; simp)

/-! ### Claim C8 -/

/-- C8: on an in-memory memo hit (the context's completed cache already
holds the step key), `Step` leaves both the database and the context
unchanged, does not invoke the body, and returns the result decoded from
the cached output bytes. -/
theorem step_cache_hit_frame {T : Type} (enc : T → String) (dec : String → Except String T)
    (zero : T) (db : DB) (ctx : Context) (id : String) (body : Unit → T × Option String)
    (seq : Int) (b : String) (v : T)
    (hb : List.lookup id ctx.stepIDToSeq = some seq)
    (hc : List.lookup (generateStepKey id seq) ctx.completedSteps = some b)
    (hdec : dec b = .ok v) :
    Step enc dec zero db ctx id body = ⟨v, none, db, ctx, false, false, seq⟩ := by
  simp only [Step, assignSeq, hb, hc, hdec]

theorem step_cache_hit_frame_witness :
    stepJ emptyDB ⟨"w", 1, [("a:1", "null")], [("a", 1)]⟩ "a" (fun _ => (JVal.jnull, none)) =
      ⟨JVal.jnull, none, emptyDB, ⟨"w", 1, [("a:1", "null")], [("a", 1)]⟩, false, false, 1⟩ :=
  step_cache_hit_frame jsonEncode jsonDecode JVal.jnull emptyDB
    ⟨"w", 1, [("a:1", "null")], [("a", 1)]⟩ "a" (fun _ => (JVal.jnull, none))
    1 "null" JVal.jnull rfl (by decide) rfl

/-! ### Claim C7 -/

theorem markThenFail_row (db : DB) (w k id : String) (seq : Int) (msg : String)
    (hown : ∀ r ∈ db.steps, r.step_key = k → r.workflow_id = w) :
    ∃ r ∈ (SaveStepError (MarkStepInProgress db w k id seq) w k msg).steps,
      r.workflow_id = w ∧ r.step_key = k ∧ r.status = "failed" ∧ r.error = some msg := by
  rw [MarkStepInProgress]
  by_cases hany : db.steps.any (fun r => decide (r.step_key = k)) = true
  · rw [if_pos hany]
    obtain ⟨r0, hr0, hk0⟩ := List.any_eq_true.mp hany
    simp only [decide_eq_true_eq] at hk0
    have hw0 : r0.workflow_id = w := hown r0 hr0 hk0
    refine ⟨{ r0 with status := "failed", error := some msg }, ?_, hw0, hk0, rfl, rfl⟩
    rw [SaveStepError]
    apply List.mem_map.mpr
    refine ⟨{ r0 with status := "in_progress" }, ?_, by simp [hw0, hk0]⟩
    apply List.mem_map.mpr
    exact ⟨r0, hr0, by simp [hk0]⟩
  · rw [if_neg hany]
    refine ⟨⟨w, id, seq, k, "failed", none, some msg⟩, ?_, rfl, rfl, rfl, rfl⟩
    rw [SaveStepError]
    apply List.mem_map.mpr
    refine ⟨⟨w, id, seq, k, "in_progress", none, none⟩, ?_, by simp⟩
    exact List.mem_append_right _ (List.mem_singleton.mpr rfl)

/-- C7: when the body returns an error, `Step` transitions the step's
record to status `failed` carrying the body's error message, and returns
that same error unchanged together with the zero result. -/
theorem step_body_error_spec {T : Type} (enc : T → String) (dec : String → Except String T)
    (zero : T) (db : DB) (ctx : Context) (id : String) (body : Unit → T × Option String)
    (seq : Int) (tv : T) (msg : String)
    (hb : List.lookup id ctx.stepIDToSeq = some seq)
    (hc : List.lookup (generateStepKey id seq) ctx.completedSteps = none)
    (hdb : GetStep db ctx.WorkflowID (generateStepKey id seq) = none)
    (hown : ∀ r ∈ db.steps, r.step_key = generateStepKey id seq → r.workflow_id = ctx.WorkflowID)
    (hbody : body () = (tv, some msg)) :
    (Step enc dec zero db ctx id body).err = some msg ∧
    (Step enc dec zero db ctx id body).val = zero ∧
    ∃ r ∈ (Step enc dec zero db ctx id body).db.steps,
      r.workflow_id = ctx.WorkflowID ∧ r.step_key = generateStepKey id seq ∧
      r.status = "failed" ∧ r.error = some msg := by
  have hstep : Step enc dec zero db ctx id body =
      ⟨zero, some msg,
        SaveStepError (MarkStepInProgress db ctx.WorkflowID (generateStepKey id seq) id seq)
          ctx.WorkflowID (generateStepKey id seq) msg, ctx, true, false, seq⟩ := by
    simp only [Step, assignSeq, hb, hc, hdb, hbody]
  rw [hstep]
  exact ⟨rfl, rfl, markThenFail_row db ctx.WorkflowID (generateStepKey id seq) id seq msg hown⟩

theorem step_body_error_spec_witness :
    (stepJ emptyDB ⟨"w", 1, [], [("a", 1)]⟩ "a" (fun _ => (JVal.jnull, some "boom"))).err =
      some "boom" ∧
    (stepJ emptyDB ⟨"w", 1, [], [("a", 1)]⟩ "a" (fun _ => (JVal.jnull, some "boom"))).val =
      JVal.jnull ∧
    ∃ r ∈ (stepJ emptyDB ⟨"w", 1, [], [("a", 1)]⟩ "a"
        (fun _ => (JVal.jnull, some "boom"))).db.steps,
      r.workflow_id = (⟨"w", 1, [], [("a", 1)]⟩ : Context).WorkflowID ∧
      r.step_key = generateStepKey "a" 1 ∧ r.status = "failed" ∧ r.error = some "boom" :=
  step_body_error_spec jsonEncode jsonDecode JVal.jnull emptyDB ⟨"w", 1, [], [("a", 1)]⟩
    "a" (fun _ => (JVal.jnull, some "boom")) 1 JVal.jnull "boom"
    rfl (by decide) (by decide) (by intro r hr; simp [emptyDB] at hr) rfl

/-! ### Claim C2 -/

/-- C2: executing a workflow whose persisted status is `completed`
returns success immediately with the database unchanged, invokes no step
body, and the workflow's status remains `completed`. -/
theorem execute_completed_noop (db : DB) (w : String)
    (proc : List (String × (Unit → JVal × Option String)))
    (h : GetWorkflowStatus db w = .ok "completed") :
    Execute db w proc = (none, db, []) ∧
    GetWorkflowStatus (Execute db w proc).2.1 w = .ok "completed" := by
  have hcw := CreateWorkflow_existing h
  have h1 : Execute db w proc = (none, db, []) := by
    simp only [Execute, hcw, h]
    rw [if_pos trivial]
  exact ⟨h1, by rw [h1]; exact h⟩

theorem execute_completed_noop_witness :
    Execute ⟨[("w", "completed")], []⟩ "w" [("s", fun _ => (JVal.jnull, some "boom"))] =
      (none, ⟨[("w", "completed")], []⟩, []) ∧
    GetWorkflowStatus
        (Execute ⟨[("w", "completed")], []⟩ "w"
          [("s", fun _ => (JVal.jnull, some "boom"))]).2.1 "w" =
      .ok "completed" :=
  execute_completed_noop ⟨[("w", "completed")], []⟩ "w"
    [("s", fun _ => (JVal.jnull, some "boom"))] rfl

/-! ### Association list and uniqueness helper lemmas -/

theorem lookup_cons_self {β : Type} (k : String) (v : β) (l : List (String × β)) :
    List.lookup k ((k, v) :: l) = some v := by
  simp [List.lookup]

theorem lookup_cons_ne {β : Type} {a k : String} (h : a ≠ k) (v : β) (l : List (String × β)) :
    List.lookup a ((k, v) :: l) = List.lookup a l := by
  have hb : (a == k) = false := beq_eq_false_iff_ne.mpr h
  simp [List.lookup, hb]

theorem pairwise_eq_of_key {l : List StepRow}
    (hp : l.Pairwise (fun a b => a.step_key ≠ b.step_key))
    {a b : StepRow} (ha : a ∈ l) (hb : b ∈ l) (hk : a.step_key = b.step_key) : a = b := by
  induction l with
  | nil => exact absurd ha (List.not_mem_nil a)
  | cons x xs ih =>
    have hx := (List.pairwise_cons.mp hp).1
    have hxs := (List.pairwise_cons.mp hp).2
    rcases List.mem_cons.mp ha with h1 | h1 <;> rcases List.mem_cons.mp hb with h2 | h2
    · rw [h1, h2]
    · subst h1; exact absurd hk (hx b h2)
    · subst h2; exact absurd hk.symm (hx a h1)
    · exact ih hxs h1 h2

/-! ### `assignSeq` facts -/

theorem assignSeq_bound {ctx : Context} {id : String} {s : Int}
    (h : List.lookup id ctx.stepIDToSeq = some s) :
    assignSeq ctx id = (s, false, ctx) := by
  simp [assignSeq, h]

theorem assignSeq_fresh {ctx : Context} {id : String}
    (h : List.lookup id ctx.stepIDToSeq = none) :
    assignSeq ctx id = (ctx.sequenceNum + 1, true,
      { ctx with sequenceNum := ctx.sequenceNum + 1,
                 stepIDToSeq := (id, ctx.sequenceNum + 1) :: ctx.stepIDToSeq }) := by
  simp [assignSeq, h]

theorem assignSeq_shape {ctx : Context} {id : String} {seq : Int} {fresh : Bool} {ctx1 : Context}
    (ha : assignSeq ctx id = (seq, fresh, ctx1)) :
    ctx1.WorkflowID = ctx.WorkflowID ∧
    ctx1.completedSteps = ctx.completedSteps ∧
    List.lookup id ctx1.stepIDToSeq = some seq ∧
    ctx.sequenceNum ≤ ctx1.sequenceNum ∧
    (∀ id' s, List.lookup id' ctx.stepIDToSeq = some s →
      List.lookup id' ctx1.stepIDToSeq = some s) ∧
    (∀ id' s, List.lookup id' ctx1.stepIDToSeq = some s →
      (id' = id ∧ s = seq) ∨ List.lookup id' ctx.stepIDToSeq = some s) ∧
    (fresh = true →
      List.lookup id ctx.stepIDToSeq = none ∧ seq = ctx.sequenceNum + 1 ∧
      seq = ctx1.sequenceNum) ∧
    (fresh = false → ctx1 = ctx ∧ List.lookup id ctx.stepIDToSeq = some seq) := by
  cases h : List.lookup id ctx.stepIDToSeq with
  | some s =>
    rw [assignSeq_bound h] at ha
    injection ha with h1 h23
    injection h23 with h2 h3
    subst h1
    subst h3
    exact ⟨rfl, rfl, h, le_refl _, fun id' s' hs => hs, fun id' s' hs => Or.inr hs,
      fun hf => absurd (h2.trans hf) (by simp),
      fun _ => ⟨rfl, rfl⟩⟩
  | none =>
    rw [assignSeq_fresh h] at ha
    injection ha with h1 h23
    injection h23 with h2 h3
    subst h1
    subst h3
    subst h2
    refine ⟨rfl, rfl, lookup_cons_self id _ _, by simp, ?_, ?_, fun _ => ⟨rfl, rfl, rfl⟩,
      fun hf => absurd hf (by simp)⟩
    · intro id' s' hs
      have hne : id' ≠ id := fun he => by rw [he, h] at hs; exact absurd hs (by simp)
      show List.lookup id' ((id, ctx.sequenceNum + 1) :: ctx.stepIDToSeq) = some s'
      rw [lookup_cons_ne hne]
      exact hs
    · intro id' s' hs
      by_cases hid : id' = id
      · subst hid
        have : List.lookup id' ((id', ctx.sequenceNum + 1) :: ctx.stepIDToSeq) = some s' := hs
        rw [lookup_cons_self] at this
        left
        exact ⟨rfl, by injection this with h4; rw [← h4]⟩
      · right
        have : List.lookup id' ((id, ctx.sequenceNum + 1) :: ctx.stepIDToSeq) = some s' := hs
        rw [lookup_cons_ne hid] at this
        exact this

/-- Full case analysis of one `Step` call, given the result of sequence
assignment: the call either hits the in-memory cache, hits the durable
record, or runs the write path (in-progress marker, body, then the
completion or failure write). -/
theorem step_cases {T : Type} (enc : T → String) (dec : String → Except String T) (zero : T)
    (db : DB) (ctx : Context) (id : String) (body : Unit → T × Option String)
    {seq : Int} {fresh : Bool} {ctx1 : Context}
    (ha : assignSeq ctx id = (seq, fresh, ctx1)) :
    (Step enc dec zero db ctx id body).seq = seq ∧
    (Step enc dec zero db ctx id body).fresh = fresh ∧
    ((∃ b e, List.lookup (generateStepKey id seq) ctx1.completedSteps = some b ∧
        dec b = .error e ∧
        Step enc dec zero db ctx id body =
          ⟨zero, some ("failed to unmarshal cached result: " ++ e), db, ctx1, false, fresh, seq⟩) ∨
     (∃ b v, List.lookup (generateStepKey id seq) ctx1.completedSteps = some b ∧
        dec b = .ok v ∧
        Step enc dec zero db ctx id body = ⟨v, none, db, ctx1, false, fresh, seq⟩) ∨
     (∃ o e, List.lookup (generateStepKey id seq) ctx1.completedSteps = none ∧
        GetStep db ctx1.WorkflowID (generateStepKey id seq) = some o ∧ dec o = .error e ∧
        Step enc dec zero db ctx id body =
          ⟨zero, some ("failed to unmarshal database result: " ++ e), db, ctx1, false, fresh, seq⟩) ∨
     (∃ o v, List.lookup (generateStepKey id seq) ctx1.completedSteps = none ∧
        GetStep db ctx1.WorkflowID (generateStepKey id seq) = some o ∧ dec o = .ok v ∧
        Step enc dec zero db ctx id body =
          ⟨v, none, db,
            { ctx1 with completedSteps :=
                (generateStepKey id seq, o) :: ctx1.completedSteps }, false, fresh, seq⟩) ∨
     (∃ tv e, List.lookup (generateStepKey id seq) ctx1.completedSteps = none ∧
        GetStep db ctx1.WorkflowID (generateStepKey id seq) = none ∧ body () = (tv, some e) ∧
        Step enc dec zero db ctx id body =
          ⟨zero, some e,
            SaveStepError (MarkStepInProgress db ctx1.WorkflowID (generateStepKey id seq) id seq)
              ctx1.WorkflowID (generateStepKey id seq) e, ctx1, true, fresh, seq⟩) ∨
     (∃ v, List.lookup (generateStepKey id seq) ctx1.completedSteps = none ∧
        GetStep db ctx1.WorkflowID (generateStepKey id seq) = none ∧ body () = (v, none) ∧
        Step enc dec zero db ctx id body =
          ⟨v, none,
            SaveStep (MarkStepInProgress db ctx1.WorkflowID (generateStepKey id seq) id seq)
              ctx1.WorkflowID (generateStepKey id seq) (enc v),
            { ctx1 with completedSteps :=
                (generateStepKey id seq, enc v) :: ctx1.completedSteps }, true, fresh, seq⟩)) := by
  cases hc : List.lookup (generateStepKey id seq) ctx1.completedSteps with
  | some b =>
    cases hd : dec b with
    | error e =>
      refine ⟨?_, ?_, Or.inl ⟨b, e, rfl, hd, ?_⟩⟩ <;> simp only [Step, ha, hc, hd]
    | ok v =>
      refine ⟨?_, ?_, Or.inr (Or.inl ⟨b, v, rfl, hd, ?_⟩)⟩ <;> simp only [Step, ha, hc, hd]
  | none =>
    cases hget : GetStep db ctx1.WorkflowID (generateStepKey id seq) with
    | some o =>
      cases hd : dec o with
      | error e =>
        refine ⟨?_, ?_, Or.inr (Or.inr (Or.inl ⟨o, e, rfl, rfl, hd, ?_⟩))⟩ <;>
          simp only [Step, ha, hc, hget, hd]
      | ok v =>
        refine ⟨?_, ?_, Or.inr (Or.inr (Or.inr (Or.inl ⟨o, v, rfl, rfl, hd, ?_⟩)))⟩ <;>
          simp only [Step, ha, hc, hget, hd]
    | none =>
      rcases hbody : body () with ⟨tv, er⟩
      cases er with
      | some e =>
        refine ⟨?_, ?_, Or.inr (Or.inr (Or.inr (Or.inr (Or.inl ⟨tv, e, rfl, rfl, rfl, ?_⟩))))⟩ <;>
          simp only [Step, ha, hc, hget, hbody]
      | none =>
        refine ⟨?_, ?_,
          Or.inr (Or.inr (Or.inr (Or.inr (Or.inr ⟨tv, rfl, rfl, rfl, ?_⟩))))⟩ <;>
          simp only [Step, ha, hc, hget, hbody]

/-! ### Write-path structure lemmas -/

theorem mem_map_pres_of_ne {p : StepRow → Prop} [DecidablePred p] {g : StepRow → StepRow}
    {r : StepRow} {l : List StepRow} (hr : r ∈ l) (hnp : ¬ p r) :
    r ∈ l.map (fun x => if p x then g x else x) := by
  have h := List.mem_map_of_mem (fun x => if p x then g x else x) hr
  have h2 : (if p r then g r else r) ∈ l.map (fun x => if p x then g x else x) := h
  rwa [if_neg hnp] at h2

theorem mark_pres_row {db : DB} {w k id : String} {seq : Int} {r : StepRow}
    (hr : r ∈ db.steps) (hne : r.step_key ≠ k) :
    r ∈ (MarkStepInProgress db w k id seq).steps := by
  rw [MarkStepInProgress]
  split
  · exact mem_map_pres_of_ne hr hne
  · exact List.mem_append_left _ hr

theorem save_pres_row {w k outB : String} {r : StepRow} {l : List StepRow}
    (hr : r ∈ l) (hne : r.step_key ≠ k) :
    r ∈ l.map (fun x => if x.workflow_id = w ∧ x.step_key = k then
      { x with status := "completed", output := some outB } else x) :=
  mem_map_pres_of_ne hr (by rintro ⟨_, hk2⟩; exact hne hk2)

theorem fail_pres_row {w k msg : String} {r : StepRow} {l : List StepRow}
    (hr : r ∈ l) (hne : r.step_key ≠ k) :
    r ∈ l.map (fun x => if x.workflow_id = w ∧ x.step_key = k then
      { x with status := "failed", error := some msg } else x) :=
  mem_map_pres_of_ne hr (by rintro ⟨_, hk2⟩; exact hne hk2)

theorem rows_of_mark {db : DB} {w k id : String} {seq : Int} :
    ∀ rr ∈ (MarkStepInProgress db w k id seq).steps,
      (∃ r ∈ db.steps, rr.workflow_id = r.workflow_id ∧ rr.step_id = r.step_id ∧
        rr.sequence_num = r.sequence_num ∧ rr.step_key = r.step_key ∧
        rr.output = r.output ∧ (rr = r ∨ rr.status = "in_progress")) ∨
      rr = ⟨w, id, seq, k, "in_progress", none, none⟩ := by
  intro rr hrr
  rw [MarkStepInProgress] at hrr
  split at hrr
  · obtain ⟨r, hr, hfr⟩ := List.mem_map.mp hrr
    by_cases hk : r.step_key = k
    · rw [if_pos hk] at hfr
      exact Or.inl ⟨r, hr, by rw [← hfr]; exact ⟨rfl, rfl, rfl, rfl, rfl, Or.inr rfl⟩⟩
    · rw [if_neg hk] at hfr
      exact Or.inl ⟨r, hr, by rw [← hfr]; exact ⟨rfl, rfl, rfl, rfl, rfl, Or.inl rfl⟩⟩
  · rcases List.mem_append.mp hrr with h1 | h2
    · exact Or.inl ⟨rr, h1, rfl, rfl, rfl, rfl, rfl, Or.inl rfl⟩
    · exact Or.inr (List.mem_singleton.mp h2)

theorem rows_of_save {w k outB : String} {l : List StepRow} :
    ∀ rr ∈ l.map (fun x => if x.workflow_id = w ∧ x.step_key = k then
        { x with status := "completed", output := some outB } else x),
      ∃ x ∈ l, rr.workflow_id = x.workflow_id ∧ rr.step_id = x.step_id ∧
        rr.sequence_num = x.sequence_num ∧ rr.step_key = x.step_key ∧
        (rr = x ∨ rr.status = "completed" ∧ rr.output = some outB) := by
  intro rr hrr
  obtain ⟨x, hx, hfx⟩ := List.mem_map.mp hrr
  by_cases hp : x.workflow_id = w ∧ x.step_key = k
  · rw [if_pos hp] at hfx
    exact ⟨x, hx, by rw [← hfx]; exact ⟨rfl, rfl, rfl, rfl, Or.inr ⟨rfl, rfl⟩⟩⟩
  · rw [if_neg hp] at hfx
    exact ⟨x, hx, by rw [← hfx]; exact ⟨rfl, rfl, rfl, rfl, Or.inl rfl⟩⟩

theorem rows_of_fail {w k msg : String} {l : List StepRow} :
    ∀ rr ∈ l.map (fun x => if x.workflow_id = w ∧ x.step_key = k then
        { x with status := "failed", error := some msg } else x),
      ∃ x ∈ l, rr.workflow_id = x.workflow_id ∧ rr.step_id = x.step_id ∧
        rr.sequence_num = x.sequence_num ∧ rr.step_key = x.step_key ∧
        (rr = x ∨ rr.status = "failed" ∧ rr.output = x.output) := by
  intro rr hrr
  obtain ⟨x, hx, hfx⟩ := List.mem_map.mp hrr
  by_cases hp : x.workflow_id = w ∧ x.step_key = k
  · rw [if_pos hp] at hfx
    exact ⟨x, hx, by rw [← hfx]; exact ⟨rfl, rfl, rfl, rfl, Or.inr ⟨rfl, rfl⟩⟩⟩
  · rw [if_neg hp] at hfx
    exact ⟨x, hx, by rw [← hfx]; exact ⟨rfl, rfl, rfl, rfl, Or.inl rfl⟩⟩

theorem uniq_map_key_pres {l : List StepRow}
    (hp : l.Pairwise (fun a b => a.step_key ≠ b.step_key)) {f : StepRow → StepRow}
    (hf : ∀ x, (f x).step_key = x.step_key) :
    (l.map f).Pairwise (fun a b => a.step_key ≠ b.step_key) := by
  rw [List.pairwise_map]
  exact hp.imp (fun h => by rw [hf, hf]; exact h)

theorem uniq_mark {db : DB} {w k id : String} {seq : Int} (hu : UniqueKeys db) :
    (MarkStepInProgress db w k id seq).steps.Pairwise (fun a b => a.step_key ≠ b.step_key) := by
  rw [MarkStepInProgress]
  split
  · exact uniq_map_key_pres hu (fun x => by by_cases h : x.step_key = k <;> simp [h])
  · rename_i hany
    rw [List.pairwise_append]
    refine ⟨hu, by simp, ?_⟩
    intro a ha b hb
    rw [List.mem_singleton.mp hb]
    intro hak
    exact hany (List.any_eq_true.mpr ⟨a, ha, by simp [hak]⟩)

theorem uniq_save {w k outB : String} {l : List StepRow}
    (hu : l.Pairwise (fun a b => a.step_key ≠ b.step_key)) :
    (l.map (fun x => if x.workflow_id = w ∧ x.step_key = k then
      { x with status := "completed", output := some outB } else x)).Pairwise
        (fun a b => a.step_key ≠ b.step_key) :=
  uniq_map_key_pres hu (fun x => by by_cases h : x.workflow_id = w ∧ x.step_key = k <;> simp [h])

theorem uniq_fail {w k msg : String} {l : List StepRow}
    (hu : l.Pairwise (fun a b => a.step_key ≠ b.step_key)) :
    (l.map (fun x => if x.workflow_id = w ∧ x.step_key = k then
      { x with status := "failed", error := some msg } else x)).Pairwise
        (fun a b => a.step_key ≠ b.step_key) :=
  uniq_map_key_pres hu (fun x => by by_cases h : x.workflow_id = w ∧ x.step_key = k <;> simp [h])

theorem markThenSave_row (db : DB) (w k id : String) (seq : Int) (outB : String)
    (hown : ∀ r ∈ db.steps, r.step_key = k → r.workflow_id = w)
    (hkeyed : ∀ r ∈ db.steps, r.step_key = generateStepKey r.step_id r.sequence_num)
    (hk : k = generateStepKey id seq) :
    ∃ r ∈ (SaveStep (MarkStepInProgress db w k id seq) w k outB).steps,
      r.workflow_id = w ∧ r.step_id = id ∧ r.sequence_num = seq ∧ r.step_key = k ∧
      r.status = "completed" ∧ r.output = some outB := by
  rw [MarkStepInProgress]
  by_cases hany : db.steps.any (fun r => decide (r.step_key = k)) = true
  · rw [if_pos hany]
    obtain ⟨r0, hr0, hk0⟩ := List.any_eq_true.mp hany
    simp only [decide_eq_true_eq] at hk0
    have hw0 : r0.workflow_id = w := hown r0 hr0 hk0
    obtain ⟨hid0, hseq0⟩ : r0.step_id = id ∧ r0.sequence_num = seq := by
      have := (hkeyed r0 hr0).symm.trans (hk0.trans hk)
      exact generateStepKey_inj this
    refine ⟨{ r0 with status := "completed", output := some outB }, ?_, hw0, hid0, hseq0, hk0,
      rfl, rfl⟩
    rw [SaveStep]
    apply List.mem_map.mpr
    refine ⟨{ r0 with status := "in_progress" }, ?_, by simp [hw0, hk0]⟩
    apply List.mem_map.mpr
    exact ⟨r0, hr0, by simp [hk0]⟩
  · rw [if_neg hany]
    refine ⟨⟨w, id, seq, k, "completed", some outB, none⟩, ?_, rfl, rfl, rfl, rfl, rfl, rfl⟩
    rw [SaveStep]
    apply List.mem_map.mpr
    refine ⟨⟨w, id, seq, k, "in_progress", none, none⟩, ?_, by simp⟩
    exact List.mem_append_right _ (List.mem_singleton.mpr rfl)

theorem markThenFail_fields (db : DB) (w k id : String) (seq : Int) (msg : String)
    (hown : ∀ r ∈ db.steps, r.step_key = k → r.workflow_id = w)
    (hkeyed : ∀ r ∈ db.steps, r.step_key = generateStepKey r.step_id r.sequence_num)
    (hk : k = generateStepKey id seq) :
    ∃ r ∈ (SaveStepError (MarkStepInProgress db w k id seq) w k msg).steps,
      r.workflow_id = w ∧ r.step_id = id ∧ r.sequence_num = seq := by
  rw [MarkStepInProgress]
  by_cases hany : db.steps.any (fun r => decide (r.step_key = k)) = true
  · rw [if_pos hany]
    obtain ⟨r0, hr0, hk0⟩ := List.any_eq_true.mp hany
    simp only [decide_eq_true_eq] at hk0
    have hw0 : r0.workflow_id = w := hown r0 hr0 hk0
    obtain ⟨hid0, hseq0⟩ : r0.step_id = id ∧ r0.sequence_num = seq := by
      have := (hkeyed r0 hr0).symm.trans (hk0.trans hk)
      exact generateStepKey_inj this
    refine ⟨{ r0 with status := "failed", error := some msg }, ?_, hw0, hid0, hseq0⟩
    rw [SaveStepError]
    apply List.mem_map.mpr
    refine ⟨{ r0 with status := "in_progress" }, ?_, by simp [hw0, hk0]⟩
    apply List.mem_map.mpr
    exact ⟨r0, hr0, by simp [hk0]⟩
  · rw [if_neg hany]
    refine ⟨⟨w, id, seq, k, "failed", none, some msg⟩, ?_, rfl, rfl, rfl⟩
    rw [SaveStepError]
    apply List.mem_map.mpr
    refine ⟨⟨w, id, seq, k, "in_progress", none, none⟩, ?_, by simp⟩
    exact List.mem_append_right _ (List.mem_singleton.mpr rfl)

theorem getStep_none_not_completed {db : DB} {w k : String} (hu : UniqueKeys db)
    (h : GetStep db w k = none) :
    ∀ r ∈ db.steps, r.workflow_id = w → r.step_key = k → r.status ≠ "completed" := by
  intro r hr hw hk hst
  rw [GetStep_hit hu hr hw hk hst] at h
  exact absurd h (by simp)

/-- One `Step` call preserves well-formedness of the engine state. -/
theorem step_good {T : Type} (enc : T → String) (dec : String → Except String T) (zero : T)
    {w : String} {db : DB} {ctx : Context} (id : String) (body : Unit → T × Option String)
    (hg : GoodState w db ctx) :
    GoodState w (Step enc dec zero db ctx id body).db (Step enc dec zero db ctx id body).ctx := by
  rcases ha : assignSeq ctx id with ⟨seq, fresh, ctx1⟩
  obtain ⟨hA1, hA2, hA3, hA4, hA5, hA6, hA7, hA8⟩ := assignSeq_shape ha
  have hwf1 : ctx1.WorkflowID = w := by rw [hA1, hg.wfid]
  have hbound1 : ∀ r ∈ db.steps, List.lookup r.step_id ctx1.stepIDToSeq = some r.sequence_num :=
    fun r hr => hA5 _ _ (hg.bound r hr)
  have hseqle : seq ≤ ctx1.sequenceNum := by
    cases fresh with
    | false =>
      obtain ⟨hc1, hl⟩ := hA8 rfl
      rw [hc1]
      exact hg.bindSeqLe id seq hl
    | true => exact le_of_eq (hA7 rfl).2.2
  have hbindle1 : ∀ id' s, List.lookup id' ctx1.stepIDToSeq = some s → s ≤ ctx1.sequenceNum := by
    intro id' s hs
    rcases hA6 id' s hs with ⟨_, hse⟩ | hold
    · exact hse ▸ hseqle
    · exact le_trans (hg.bindSeqLe id' s hold) hA4
  have hrowle1 : ∀ r ∈ db.steps, r.sequence_num ≤ ctx1.sequenceNum :=
    fun r hr => le_trans (hg.rowSeqLe r hr) hA4
  have hcache1 : ∀ kk bb, List.lookup kk ctx1.completedSteps = some bb →
      ∃ r ∈ db.steps, r.step_key = kk ∧ r.status = "completed" ∧ r.output = some bb := by
    intro kk bb hkb
    rw [hA2] at hkb
    exact hg.cache kk bb hkb
  have hgood1 : GoodState w db ctx1 :=
    ⟨hwf1, hg.uniq, hg.owned, hg.keyed, hg.outSome, hbound1, hcache1, hrowle1, hbindle1⟩
  obtain ⟨hseqo, hfro, hcases⟩ := step_cases enc dec zero db ctx id body ha
  rcases hcases with ⟨b, e, hc, hd, hs⟩ | ⟨b, v, hc, hd, hs⟩ | ⟨o, e, hc, hget, hd, hs⟩ |
    ⟨o, v, hc, hget, hd, hs⟩ | ⟨tv, e, hc, hget, hbody, hs⟩ | ⟨v, hc, hget, hbody, hs⟩
  · simp only [hs]; exact hgood1
  · simp only [hs]; exact hgood1
  · simp only [hs]; exact hgood1
  · -- durable memo hit: the cache gains the stored row's entry
    simp only [hs]
    refine ⟨hwf1, hg.uniq, hg.owned, hg.keyed, hg.outSome, hbound1, ?_, hrowle1, hbindle1⟩
    intro kk bb hkb
    by_cases hkk : kk = generateStepKey id seq
    · subst hkk
      rw [lookup_cons_self] at hkb
      rw [hwf1] at hget
      obtain ⟨r, hr, hw, hkr, hst, hb⟩ := GetStep_some_elim hget
      obtain ⟨b0, hb0⟩ := hg.outSome r hr hst
      have hb0o : b0 = o := by rw [hb0] at hb; simpa using hb
      refine ⟨r, hr, hkr, hst, ?_⟩
      rw [hb0, hb0o, Option.some.inj hkb]
    · rw [lookup_cons_ne hkk] at hkb
      exact hcache1 kk bb hkb
  · -- body error: in-progress marker then failure write
    rw [hwf1] at hs
    simp only [hs]
    rw [hwf1] at hget
    have hnotc := getStep_none_not_completed hg.uniq hget
    refine ⟨hwf1, ?_, ?_, ?_, ?_, ?_, ?_, ?_, hbindle1⟩
    · exact uniq_fail (uniq_mark hg.uniq)
    · intro rr hrr
      obtain ⟨x, hx, hwx, _, _, _, _⟩ := rows_of_fail rr hrr
      rcases rows_of_mark x hx with ⟨r, hr, hw2, _, _, _, _, _⟩ | hnew
      · rw [hwx, hw2]; exact hg.owned r hr
      · rw [hwx, hnew]
    · intro rr hrr
      obtain ⟨x, hx, hwx, hsx, hqx, hkx, _⟩ := rows_of_fail rr hrr
      rcases rows_of_mark x hx with ⟨r, hr, _, hs2, hq2, hk2, _, _⟩ | hnew
      · rw [hkx, hk2, hsx, hs2, hqx, hq2]; exact hg.keyed r hr
      · rw [hkx, hnew, hsx, hnew, hqx, hnew]
    · intro rr hrr hst
      obtain ⟨x, hx, _, _, _, _, hox⟩ := rows_of_fail rr hrr
      rcases hox with hrx | ⟨hfs, _⟩
      · subst hrx
        rcases rows_of_mark rr hx with ⟨r, hr, _, _, _, _, hout, hor⟩ | hnew
        · rcases hor with hrr2 | hip
          · subst hrr2; exact hg.outSome rr hr hst
          · rw [hip] at hst; exact absurd hst (by decide)
        · rw [hnew] at hst; simp at hst
      · rw [hfs] at hst; exact absurd hst (by decide)
    · intro rr hrr
      obtain ⟨x, hx, _, hsx, hqx, _, _⟩ := rows_of_fail rr hrr
      rcases rows_of_mark x hx with ⟨r, hr, _, hs2, hq2, _, _, _⟩ | hnew
      · rw [hsx, hs2, hqx, hq2]; exact hbound1 r hr
      · rw [hsx, hnew, hqx, hnew]; exact hA3
    · intro kk bb hkb
      obtain ⟨r, hr, hkr, hst, hout⟩ := hcache1 kk bb hkb
      have hne : r.step_key ≠ generateStepKey id seq := by
        intro he
        exact hnotc r hr (hg.owned r hr) he hst
      exact ⟨r, fail_pres_row (mark_pres_row hr hne) hne, hkr, hst, hout⟩
    · intro rr hrr
      obtain ⟨x, hx, _, _, hqx, _, _⟩ := rows_of_fail rr hrr
      rcases rows_of_mark x hx with ⟨r, hr, _, _, hq2, _, _, _⟩ | hnew
      · rw [hqx, hq2]; exact hrowle1 r hr
      · rw [hqx, hnew]; exact hseqle
  · -- body success: in-progress marker then completion write, cache gains the entry
    rw [hwf1] at hs
    simp only [hs]
    rw [hwf1] at hget
    have hnotc := getStep_none_not_completed hg.uniq hget
    refine ⟨rfl, ?_, ?_, ?_, ?_, ?_, ?_, ?_, hbindle1⟩
    · exact uniq_save (uniq_mark hg.uniq)
    · intro rr hrr
      obtain ⟨x, hx, hwx, _, _, _, _⟩ := rows_of_save rr hrr
      rcases rows_of_mark x hx with ⟨r, hr, hw2, _, _, _, _, _⟩ | hnew
      · rw [hwx, hw2]; exact hg.owned r hr
      · rw [hwx, hnew]
    · intro rr hrr
      obtain ⟨x, hx, hwx, hsx, hqx, hkx, _⟩ := rows_of_save rr hrr
      rcases rows_of_mark x hx with ⟨r, hr, _, hs2, hq2, hk2, _, _⟩ | hnew
      · rw [hkx, hk2, hsx, hs2, hqx, hq2]; exact hg.keyed r hr
      · rw [hkx, hnew, hsx, hnew, hqx, hnew]
    · intro rr hrr hst
      obtain ⟨x, hx, _, _, _, _, hox⟩ := rows_of_save rr hrr
      rcases hox with hrx | ⟨_, hob⟩
      · subst hrx
        rcases rows_of_mark rr hx with ⟨r, hr, _, _, _, _, hout, hor⟩ | hnew
        · rcases hor with hrr2 | hip
          · subst hrr2; exact hg.outSome rr hr hst
          · rw [hip] at hst; exact absurd hst (by decide)
        · rw [hnew] at hst; simp at hst
      · exact ⟨enc v, hob⟩
    · intro rr hrr
      obtain ⟨x, hx, _, hsx, hqx, _, _⟩ := rows_of_save rr hrr
      rcases rows_of_mark x hx with ⟨r, hr, _, hs2, hq2, _, _, _⟩ | hnew
      · rw [hsx, hs2, hqx, hq2]; exact hbound1 r hr
      · rw [hsx, hnew, hqx, hnew]; exact hA3
    · intro kk bb hkb
      by_cases hkk : kk = generateStepKey id seq
      · subst hkk
        rw [lookup_cons_self] at hkb
        obtain ⟨r, hr, _, _, _, hk4, hst4, hout4⟩ :=
          markThenSave_row db w (generateStepKey id seq) id seq (enc v)
            (fun r hr _ => hg.owned r hr) hg.keyed rfl
        exact ⟨r, hr, hk4, hst4, by rw [hout4, Option.some.inj hkb]⟩
      · rw [lookup_cons_ne hkk] at hkb
        obtain ⟨r, hr, hkr, hst, hout⟩ := hcache1 kk bb hkb
        have hne : r.step_key ≠ generateStepKey id seq := by
          intro he
          exact hnotc r hr (hg.owned r hr) he hst
        exact ⟨r, save_pres_row (mark_pres_row hr hne) hne, hkr, hst, hout⟩
    · intro rr hrr
      obtain ⟨x, hx, _, _, hqx, _, _⟩ := rows_of_save rr hrr
      rcases rows_of_mark x hx with ⟨r, hr, _, _, hq2, _, _, _⟩ | hnew
      · rw [hqx, hq2]; exact hrowle1 r hr
      · rw [hqx, hnew]; exact hseqle

/-! ### Hydration lemmas -/

theorem loadMap_pres (w id0 : String) (s : Int) :
    ∀ (l : List StepRow) (acc : List (String × Int)),
      (∀ r ∈ l, r.workflow_id = w → r.step_id = id0 → r.sequence_num = s) →
      List.lookup id0 acc = some s →
      List.lookup id0 (l.foldl (fun acc r =>
        if r.workflow_id = w then (r.step_id, r.sequence_num) :: acc else acc) acc) = some s := by
  intro l
  induction l with
  | nil => intro acc _ hacc; exact hacc
  | cons x xs ih =>
    intro acc hagree hacc
    rw [List.foldl_cons]
    apply ih _ (fun r hr => hagree r (List.mem_cons_of_mem _ hr))
    by_cases hw : x.workflow_id = w
    · rw [if_pos hw]
      by_cases hid : x.step_id = id0
      · rw [hid, lookup_cons_self]
        exact congrArg some (hagree x (List.mem_cons_self x xs) hw hid)
      · rw [lookup_cons_ne (fun he => hid he.symm)]
        exact hacc
    · rw [if_neg hw]; exact hacc

theorem loadMap_mem (w id0 : String) (s : Int) :
    ∀ (l : List StepRow) (acc : List (String × Int)),
      (∀ r ∈ l, r.workflow_id = w → r.step_id = id0 → r.sequence_num = s) →
      (∃ r ∈ l, r.workflow_id = w ∧ r.step_id = id0) →
      List.lookup id0 (l.foldl (fun acc r =>
        if r.workflow_id = w then (r.step_id, r.sequence_num) :: acc else acc) acc) = some s := by
  intro l
  induction l with
  | nil => rintro acc _ ⟨r, hr, _⟩; exact absurd hr (List.not_mem_nil r)
  | cons x xs ih =>
    rintro acc hagree ⟨r, hr, hwr, hidr⟩
    rw [List.foldl_cons]
    rcases List.mem_cons.mp hr with h1 | h1
    · subst h1
      apply loadMap_pres w id0 s xs _ (fun r2 hr2 => hagree r2 (List.mem_cons_of_mem _ hr2))
      rw [if_pos hwr, hidr, lookup_cons_self]
      exact congrArg some (hagree r (List.mem_cons_self r xs) hwr hidr)
    · exact ih _ (fun r2 hr2 => hagree r2 (List.mem_cons_of_mem _ hr2)) ⟨r, h1, hwr, hidr⟩

theorem loadMap_sound (w id0 : String) (s : Int) :
    ∀ (l : List StepRow) (acc : List (String × Int)),
      List.lookup id0 (l.foldl (fun acc r =>
        if r.workflow_id = w then (r.step_id, r.sequence_num) :: acc else acc) acc) = some s →
      (∃ r ∈ l, r.workflow_id = w ∧ r.step_id = id0 ∧ r.sequence_num = s) ∨
        List.lookup id0 acc = some s := by
  intro l
  induction l with
  | nil => intro acc h; exact Or.inr h
  | cons x xs ih =>
    intro acc h
    rw [List.foldl_cons] at h
    rcases ih _ h with ⟨r, hr, h3⟩ | hacc
    · exact Or.inl ⟨r, List.mem_cons_of_mem _ hr, h3⟩
    · by_cases hw : x.workflow_id = w
      · rw [if_pos hw] at hacc
        by_cases hid : x.step_id = id0
        · rw [hid, lookup_cons_self] at hacc
          exact Or.inl ⟨x, List.mem_cons_self x xs, hw, hid, Option.some.inj hacc⟩
        · rw [lookup_cons_ne (fun he => hid he.symm)] at hacc
          exact Or.inr hacc
      · rw [if_neg hw] at hacc; exact Or.inr hacc

theorem loadCompleted_sound (w k b : String) :
    ∀ (l : List StepRow) (acc : List (String × String)),
      List.lookup k (l.foldl (fun acc r =>
        if r.workflow_id = w ∧ r.status = "completed" then
          (r.step_key, r.output.getD "") :: acc else acc) acc) = some b →
      (∃ r ∈ l, r.workflow_id = w ∧ r.step_key = k ∧ r.status = "completed" ∧
        r.output.getD "" = b) ∨ List.lookup k acc = some b := by
  intro l
  induction l with
  | nil => intro acc h; exact Or.inr h
  | cons x xs ih =>
    intro acc h
    rw [List.foldl_cons] at h
    rcases ih _ h with ⟨r, hr, h3⟩ | hacc
    · exact Or.inl ⟨r, List.mem_cons_of_mem _ hr, h3⟩
    · by_cases hw : x.workflow_id = w ∧ x.status = "completed"
      · rw [if_pos hw] at hacc
        by_cases hid : x.step_key = k
        · rw [hid, lookup_cons_self] at hacc
          exact Or.inl ⟨x, List.mem_cons_self x xs, hw.1, hid, hw.2, Option.some.inj hacc⟩
        · rw [lookup_cons_ne (fun he => hid he.symm)] at hacc
          exact Or.inr hacc
      · rw [if_neg hw] at hacc; exact Or.inr hacc

theorem foldl_max_ge_init :
    ∀ (l : List StepRow) (a : Int), a ≤ l.foldl (fun m x => max m x.sequence_num) a := by
  intro l
  induction l with
  | nil => intro a; exact le_refl a
  | cons x xs ih => intro a; exact le_trans (le_max_left a x.sequence_num) (ih _)

theorem foldl_max_ge_mem :
    ∀ (l : List StepRow) (a : Int) (r : StepRow), r ∈ l →
      r.sequence_num ≤ l.foldl (fun m x => max m x.sequence_num) a := by
  intro l
  induction l with
  | nil => intro a r hr; exact absurd hr (List.not_mem_nil r)
  | cons x xs ih =>
    intro a r hr
    rw [List.foldl_cons]
    rcases List.mem_cons.mp hr with h1 | h1
    · rw [h1]; exact le_trans (le_max_right a x.sequence_num) (foldl_max_ge_init xs _)
    · exact ih _ r h1

theorem le_getMax {db : DB} {w : String} {r : StepRow} (hr : r ∈ db.steps)
    (hw : r.workflow_id = w) : r.sequence_num ≤ GetMaxSequenceNum db w := by
  rw [GetMaxSequenceNum]
  have hrf : r ∈ db.steps.filter (fun x => decide (x.workflow_id = w)) :=
    List.mem_filter.mpr ⟨hr, by simp [hw]⟩
  cases hf : db.steps.filter (fun x => decide (x.workflow_id = w)) with
  | nil => rw [hf] at hrf; exact absurd hrf (List.not_mem_nil r)
  | cons x xs =>
    rw [hf] at hrf
    rcases List.mem_cons.mp hrf with h1 | h1
    · rw [h1]; exact foldl_max_ge_init xs _
    · exact foldl_max_ge_mem xs _ r h1

/-- Rebuilding the context from storage preserves state well-formedness. -/
theorem good_rehydrate {w : String} {db : DB} {ctx : Context} (hg : GoodState w db ctx) :
    GoodState w db (newContext w db) := by
  have hagree : ∀ (id0 : String) (s : Int), List.lookup id0 ctx.stepIDToSeq = some s →
      ∀ r ∈ db.steps, r.workflow_id = w → r.step_id = id0 → r.sequence_num = s := by
    intro id0 s hl r hr _ hid
    have hb := hg.bound r hr
    rw [hid] at hb
    exact Option.some.inj (hb.symm.trans hl)
  refine ⟨rfl, hg.uniq, hg.owned, hg.keyed, hg.outSome, ?_, ?_, ?_, ?_⟩
  · intro r hr
    exact loadMap_mem w r.step_id r.sequence_num db.steps []
      (hagree r.step_id r.sequence_num (hg.bound r hr)) ⟨r, hr, hg.owned r hr, rfl⟩
  · intro k b hkb
    rcases loadCompleted_sound w k b db.steps [] hkb with ⟨r, hr, hwr, hkr, hstr, houtr⟩ | hnil
    · obtain ⟨b0, hb0⟩ := hg.outSome r hr hstr
      have hb0b : b0 = b := by rw [hb0] at houtr; simpa using houtr
      exact ⟨r, hr, hkr, hstr, by rw [hb0, hb0b]⟩
    · simp at hnil
  · intro r hr
    exact le_getMax hr (hg.owned r hr)
  · intro id0 s hl
    rcases loadMap_sound w id0 s db.steps [] hl with ⟨r, hr, hwr, hidr, hsr⟩ | hnil
    · rw [← hsr]
      exact le_getMax hr hwr
    · simp at hnil

theorem memo_rehydrate {w id : String} {seq : Int} {v : JVal} {db : DB} {ctx : Context}
    (hg : GoodState w db ctx) (hm : MemoAt w id seq v db ctx) :
    MemoAt w id seq v db (newContext w db) := by
  obtain ⟨r, hr, hwr, hidr, hsr, hrest⟩ := hm.row
  have hagree : ∀ r2 ∈ db.steps, r2.workflow_id = w → r2.step_id = id → r2.sequence_num = seq := by
    intro r2 hr2 _ hid2
    have hb2 := hg.bound r2 hr2
    rw [hid2] at hb2
    exact Option.some.inj (hb2.symm.trans hm.bind)
  exact ⟨loadMap_mem w id seq db.steps [] hagree ⟨r, hr, hwr, hidr⟩,
    ⟨r, hr, hwr, hidr, hsr, hrest⟩⟩

theorem seqat_rehydrate {w id : String} {seq : Int} {db : DB} {ctx : Context}
    (hg : GoodState w db ctx) (hsa : SeqAt w id seq db ctx) :
    SeqAt w id seq db (newContext w db) := by
  obtain ⟨r, hr, hwr, hidr, hsr⟩ := hsa.row
  have hagree : ∀ r2 ∈ db.steps, r2.workflow_id = w → r2.step_id = id → r2.sequence_num = seq := by
    intro r2 hr2 _ hid2
    have hb2 := hg.bound r2 hr2
    rw [hid2] at hb2
    exact Option.some.inj (hb2.symm.trans hsa.bind)
  exact ⟨loadMap_mem w id seq db.steps [] hagree ⟨r, hr, hwr, hidr⟩, ⟨r, hr, hwr, hidr, hsr⟩⟩

/-! ### Frame congruence for the workflow-record operations -/

theorem createWF_steps (db : DB) (w : String) : (CreateWorkflow db w).steps = db.steps := by
  rw [CreateWorkflow]
  split <;> rfl

theorem updWF_steps (db : DB) (w s : String) :
    (UpdateWorkflowStatus db w s).steps = db.steps := rfl

theorem good_steps_congr {w : String} {db db2 : DB} {ctx : Context}
    (h : db2.steps = db.steps) (hg : GoodState w db ctx) : GoodState w db2 ctx := by
  refine ⟨hg.wfid, ?_, ?_, ?_, ?_, ?_, ?_, ?_, hg.bindSeqLe⟩
  · show db2.steps.Pairwise _
    rw [h]
    exact hg.uniq
  · intro r hr; rw [h] at hr; exact hg.owned r hr
  · intro r hr; rw [h] at hr; exact hg.keyed r hr
  · intro r hr; rw [h] at hr; exact hg.outSome r hr
  · intro r hr; rw [h] at hr; exact hg.bound r hr
  · intro k b hkb
    obtain ⟨r, hr, hrest⟩ := hg.cache k b hkb
    exact ⟨r, by rw [h]; exact hr, hrest⟩
  · intro r hr; rw [h] at hr; exact hg.rowSeqLe r hr

theorem memo_steps_congr {w id : String} {seq : Int} {v : JVal} {db db2 : DB} {ctx : Context}
    (h : db2.steps = db.steps) (hm : MemoAt w id seq v db ctx) : MemoAt w id seq v db2 ctx := by
  obtain ⟨r, hr, hrest⟩ := hm.row
  exact ⟨hm.bind, ⟨r, by rw [h]; exact hr, hrest⟩⟩

theorem seqat_steps_congr {w id : String} {seq : Int} {db db2 : DB} {ctx : Context}
    (h : db2.steps = db.steps) (hsa : SeqAt w id seq db ctx) : SeqAt w id seq db2 ctx := by
  obtain ⟨r, hr, hrest⟩ := hsa.row
  exact ⟨hsa.bind, ⟨r, by rw [h]; exact hr, hrest⟩⟩

/-! ### Establishment and preservation of the memoization invariant -/

/-- A successful `Step` call leaves the step durably memoized. -/
theorem step_est_memo {w : String} {db : DB} {ctx : Context} (id : String)
    (body : Unit → JVal × Option String) (hg : GoodState w db ctx)
    (hok : (stepJ db ctx id body).err = none) :
    MemoAt w id (stepJ db ctx id body).seq (stepJ db ctx id body).val
      (stepJ db ctx id body).db (stepJ db ctx id body).ctx := by
  simp only [stepJ] at hok ⊢
  rcases ha : assignSeq ctx id with ⟨seq, fresh, ctx1⟩
  obtain ⟨hA1, hA2, hA3, hA4, hA5, hA6, hA7, hA8⟩ := assignSeq_shape ha
  have hwf1 : ctx1.WorkflowID = w := by rw [hA1, hg.wfid]
  obtain ⟨_, _, hcases⟩ := step_cases jsonEncode jsonDecode JVal.jnull db ctx id body ha
  rcases hcases with ⟨b, e, hc, hd, hs⟩ | ⟨b, v, hc, hd, hs⟩ | ⟨o, e, hc, hget, hd, hs⟩ |
    ⟨o, v, hc, hget, hd, hs⟩ | ⟨tv, e, hc, hget, hbody, hs⟩ | ⟨v, hc, hget, hbody, hs⟩
  · rw [hs] at hok; exact absurd hok (by simp)
  · -- in-memory memo hit
    simp only [hs]
    rw [hA2] at hc
    obtain ⟨r, hr, hkr, hstr, houtr⟩ := hg.cache _ _ hc
    obtain ⟨hid2, hseq2⟩ : r.step_id = id ∧ r.sequence_num = seq :=
      generateStepKey_inj ((hg.keyed r hr).symm.trans hkr)
    exact ⟨hA3, ⟨r, hr, hg.owned r hr, hid2, hseq2, hkr, hstr, b, houtr, hd⟩⟩
  · rw [hs] at hok; exact absurd hok (by simp)
  · -- durable memo hit
    simp only [hs]
    rw [hwf1] at hget
    obtain ⟨r, hr, hwr, hkr, hstr, hb⟩ := GetStep_some_elim hget
    obtain ⟨b0, hb0⟩ := hg.outSome r hr hstr
    have hb0o : b0 = o := by rw [hb0] at hb; simpa using hb
    obtain ⟨hid2, hseq2⟩ : r.step_id = id ∧ r.sequence_num = seq :=
      generateStepKey_inj ((hg.keyed r hr).symm.trans hkr)
    exact ⟨hA3, ⟨r, hr, hwr, hid2, hseq2, hkr, hstr, o, by rw [hb0, hb0o], hd⟩⟩
  · rw [hs] at hok; exact absurd hok (by simp)
  · -- executed and completed
    rw [hwf1] at hs
    simp only [hs]
    obtain ⟨r, hr, hw4, hid4, hseq4, hk4, hst4, hout4⟩ :=
      markThenSave_row db w (generateStepKey id seq) id seq (jsonEncode v)
        (fun r hr _ => hg.owned r hr) hg.keyed rfl
    exact ⟨hA3, ⟨r, hr, hw4, hid4, hseq4, hk4, hst4, jsonEncode v, hout4, decode_encode v⟩⟩

/-- Any later `Step` call (with any ID and body) preserves a durably
memoized step. -/
theorem step_pres_memo {T : Type} (enc : T → String) (dec : String → Except String T) (zero : T)
    {w : String} {db : DB} {ctx : Context} {id : String} {seq : Int} {v : JVal}
    (hg : GoodState w db ctx) (hm : MemoAt w id seq v db ctx)
    (id2 : String) (body2 : Unit → T × Option String) :
    MemoAt w id seq v (Step enc dec zero db ctx id2 body2).db
      (Step enc dec zero db ctx id2 body2).ctx := by
  rcases ha : assignSeq ctx id2 with ⟨seq2, fresh2, ctx1⟩
  obtain ⟨hA1, hA2, hA3, hA4, hA5, hA6, hA7, hA8⟩ := assignSeq_shape ha
  have hbind1 : List.lookup id ctx1.stepIDToSeq = some seq := hA5 _ _ hm.bind
  have hwf1 : ctx1.WorkflowID = w := by rw [hA1, hg.wfid]
  obtain ⟨r, hr, hwr, hidr, hsr, hkr, hstr, b, hout, hdec⟩ := hm.row
  obtain ⟨_, _, hcases⟩ := step_cases enc dec zero db ctx id2 body2 ha
  rcases hcases with ⟨b2, e2, hc, hd, hs⟩ | ⟨b2, v2, hc, hd, hs⟩ | ⟨o, e2, hc, hget, hd, hs⟩ |
    ⟨o, v2, hc, hget, hd, hs⟩ | ⟨tv, e2, hc, hget, hbody, hs⟩ | ⟨v2, hc, hget, hbody, hs⟩
  · simp only [hs]; exact ⟨hbind1, r, hr, hwr, hidr, hsr, hkr, hstr, b, hout, hdec⟩
  · simp only [hs]; exact ⟨hbind1, r, hr, hwr, hidr, hsr, hkr, hstr, b, hout, hdec⟩
  · simp only [hs]; exact ⟨hbind1, r, hr, hwr, hidr, hsr, hkr, hstr, b, hout, hdec⟩
  · simp only [hs]; exact ⟨hbind1, r, hr, hwr, hidr, hsr, hkr, hstr, b, hout, hdec⟩
  · rw [hwf1] at hs hget
    have hrne : r.step_key ≠ generateStepKey id2 seq2 := by
      intro he
      have hhit := GetStep_hit hg.uniq hr hwr he hstr
      exact absurd (hhit.symm.trans hget) (by simp)
    simp only [hs]
    exact ⟨hbind1, r, fail_pres_row (mark_pres_row hr hrne) hrne, hwr, hidr, hsr, hkr, hstr,
      b, hout, hdec⟩
  · rw [hwf1] at hs hget
    have hrne : r.step_key ≠ generateStepKey id2 seq2 := by
      intro he
      have hhit := GetStep_hit hg.uniq hr hwr he hstr
      exact absurd (hhit.symm.trans hget) (by simp)
    simp only [hs]
    exact ⟨hbind1, r, save_pres_row (mark_pres_row hr hrne) hrne, hwr, hidr, hsr, hkr, hstr,
      b, hout, hdec⟩

/-! ### Establishment and preservation of the sequence assignment -/

theorem mark_pres_fields {db : DB} {w k id : String} {seq : Int} {r : StepRow}
    (hr : r ∈ db.steps) :
    ∃ rr ∈ (MarkStepInProgress db w k id seq).steps,
      rr.workflow_id = r.workflow_id ∧ rr.step_id = r.step_id ∧
      rr.sequence_num = r.sequence_num := by
  rw [MarkStepInProgress]
  split
  · refine ⟨_, List.mem_map_of_mem (fun x => if x.step_key = k then
      { x with status := "in_progress" } else x) hr, ?_⟩
    by_cases hk : r.step_key = k <;> simp [hk]
  · exact ⟨r, List.mem_append_left _ hr, rfl, rfl, rfl⟩

theorem save_pres_fields {w k outB : String} {r : StepRow} {l : List StepRow} (hr : r ∈ l) :
    ∃ rr ∈ l.map (fun x => if x.workflow_id = w ∧ x.step_key = k then
        { x with status := "completed", output := some outB } else x),
      rr.workflow_id = r.workflow_id ∧ rr.step_id = r.step_id ∧
      rr.sequence_num = r.sequence_num := by
  refine ⟨_, List.mem_map_of_mem (fun x => if x.workflow_id = w ∧ x.step_key = k then
    { x with status := "completed", output := some outB } else x) hr, ?_⟩
  by_cases hp : r.workflow_id = w ∧ r.step_key = k <;> simp [hp]

theorem fail_pres_fields {w k msg : String} {r : StepRow} {l : List StepRow} (hr : r ∈ l) :
    ∃ rr ∈ l.map (fun x => if x.workflow_id = w ∧ x.step_key = k then
        { x with status := "failed", error := some msg } else x),
      rr.workflow_id = r.workflow_id ∧ rr.step_id = r.step_id ∧
      rr.sequence_num = r.sequence_num := by
  refine ⟨_, List.mem_map_of_mem (fun x => if x.workflow_id = w ∧ x.step_key = k then
    { x with status := "failed", error := some msg } else x) hr, ?_⟩
  by_cases hp : r.workflow_id = w ∧ r.step_key = k <;> simp [hp]

/-- A `Step` call that invoked the body (hence persisted its in-progress
marker) leaves a persisted sequence-number assignment behind. -/
theorem step_est_seq {T : Type} (enc : T → String) (dec : String → Except String T) (zero : T)
    {w : String} {db : DB} {ctx : Context} (id : String) (body : Unit → T × Option String)
    (hg : GoodState w db ctx)
    (hi : (Step enc dec zero db ctx id body).invoked = true) :
    SeqAt w id (Step enc dec zero db ctx id body).seq
      (Step enc dec zero db ctx id body).db (Step enc dec zero db ctx id body).ctx := by
  rcases ha : assignSeq ctx id with ⟨seq, fresh, ctx1⟩
  obtain ⟨hA1, hA2, hA3, hA4, hA5, hA6, hA7, hA8⟩ := assignSeq_shape ha
  have hwf1 : ctx1.WorkflowID = w := by rw [hA1, hg.wfid]
  obtain ⟨_, _, hcases⟩ := step_cases enc dec zero db ctx id body ha
  rcases hcases with ⟨b, e, hc, hd, hs⟩ | ⟨b, v, hc, hd, hs⟩ | ⟨o, e, hc, hget, hd, hs⟩ |
    ⟨o, v, hc, hget, hd, hs⟩ | ⟨tv, e, hc, hget, hbody, hs⟩ | ⟨v, hc, hget, hbody, hs⟩
  · rw [hs] at hi; simp at hi
  · rw [hs] at hi; simp at hi
  · rw [hs] at hi; simp at hi
  · rw [hs] at hi; simp at hi
  · rw [hwf1] at hs
    simp only [hs]
    obtain ⟨r, hr, hw4, hid4, hseq4⟩ :=
      markThenFail_fields db w (generateStepKey id seq) id seq e
        (fun r hr _ => hg.owned r hr) hg.keyed rfl
    exact ⟨hA3, ⟨r, hr, hw4, hid4, hseq4⟩⟩
  · rw [hwf1] at hs
    simp only [hs]
    obtain ⟨r, hr, hw4, hid4, hseq4, _, _, _⟩ :=
      markThenSave_row db w (generateStepKey id seq) id seq (enc v)
        (fun r hr _ => hg.owned r hr) hg.keyed rfl
    exact ⟨hA3, ⟨r, hr, hw4, hid4, hseq4⟩⟩

/-- Any later `Step` call preserves a persisted sequence assignment. -/
theorem step_pres_seq {T : Type} (enc : T → String) (dec : String → Except String T) (zero : T)
    {w : String} {db : DB} {ctx : Context} {id : String} {seq : Int}
    (hsa : SeqAt w id seq db ctx)
    (id2 : String) (body2 : Unit → T × Option String) :
    SeqAt w id seq (Step enc dec zero db ctx id2 body2).db
      (Step enc dec zero db ctx id2 body2).ctx := by
  rcases ha : assignSeq ctx id2 with ⟨seq2, fresh2, ctx1⟩
  obtain ⟨hA1, hA2, hA3, hA4, hA5, hA6, hA7, hA8⟩ := assignSeq_shape ha
  have hbind1 : List.lookup id ctx1.stepIDToSeq = some seq := hA5 _ _ hsa.bind
  obtain ⟨r, hr, hwr, hidr, hsr⟩ := hsa.row
  obtain ⟨_, _, hcases⟩ := step_cases enc dec zero db ctx id2 body2 ha
  rcases hcases with ⟨b2, e2, hc, hd, hs⟩ | ⟨b2, v2, hc, hd, hs⟩ | ⟨o, e2, hc, hget, hd, hs⟩ |
    ⟨o, v2, hc, hget, hd, hs⟩ | ⟨tv, e2, hc, hget, hbody, hs⟩ | ⟨v2, hc, hget, hbody, hs⟩
  · simp only [hs]; exact ⟨hbind1, r, hr, hwr, hidr, hsr⟩
  · simp only [hs]; exact ⟨hbind1, r, hr, hwr, hidr, hsr⟩
  · simp only [hs]; exact ⟨hbind1, r, hr, hwr, hidr, hsr⟩
  · simp only [hs]; exact ⟨hbind1, r, hr, hwr, hidr, hsr⟩
  · simp only [hs]
    obtain ⟨r1, hr1, hf1⟩ := mark_pres_fields hr
    obtain ⟨r2, hr2, hf2⟩ := fail_pres_fields hr1
    exact ⟨hbind1, r2, hr2, by rw [hf2.1, hf1.1, hwr], by rw [hf2.2.1, hf1.2.1, hidr],
      by rw [hf2.2.2, hf1.2.2, hsr]⟩
  · simp only [hs]
    obtain ⟨r1, hr1, hf1⟩ := mark_pres_fields hr
    obtain ⟨r2, hr2, hf2⟩ := save_pres_fields hr1
    exact ⟨hbind1, r2, hr2, by rw [hf2.1, hf1.1, hwr], by rw [hf2.2.1, hf1.2.1, hidr],
      by rw [hf2.2.2, hf1.2.2, hsr]⟩

/-! ### Reachability preservation -/

theorem reach_good_memo {w : String} {db db2 : DB} {ctx ctx2 : Context}
    (hr : Reach w db ctx db2 ctx2) :
    ∀ {id : String} {seq : Int} {v : JVal}, GoodState w db ctx → MemoAt w id seq v db ctx →
      GoodState w db2 ctx2 ∧ MemoAt w id seq v db2 ctx2 := by
  induction hr with
  | refl db ctx => exact fun hg hm => ⟨hg, hm⟩
  | step db ctx db2 ctx2 id2 body2 hsub ih =>
    intro id seq v hg hm
    exact ih (step_good jsonEncode jsonDecode JVal.jnull id2 body2 hg)
      (step_pres_memo jsonEncode jsonDecode JVal.jnull hg hm id2 body2)
  | createWF db ctx db2 ctx2 hsub ih =>
    intro id seq v hg hm
    exact ih (good_steps_congr (createWF_steps db w) hg)
      (memo_steps_congr (createWF_steps db w) hm)
  | updateWF db ctx db2 ctx2 st hsub ih =>
    intro id seq v hg hm
    exact ih (good_steps_congr (updWF_steps db w st) hg)
      (memo_steps_congr (updWF_steps db w st) hm)
  | rehydrate db ctx db2 ctx2 hsub ih =>
    intro id seq v hg hm
    exact ih (good_rehydrate hg) (memo_rehydrate hg hm)

theorem reach_good_seq {w : String} {db db2 : DB} {ctx ctx2 : Context}
    (hr : Reach w db ctx db2 ctx2) :
    ∀ {id : String} {seq : Int}, GoodState w db ctx → SeqAt w id seq db ctx →
      GoodState w db2 ctx2 ∧ SeqAt w id seq db2 ctx2 := by
  induction hr with
  | refl db ctx => exact fun hg hsa => ⟨hg, hsa⟩
  | step db ctx db2 ctx2 id2 body2 hsub ih =>
    intro id seq hg hsa
    exact ih (step_good jsonEncode jsonDecode JVal.jnull id2 body2 hg)
      (step_pres_seq jsonEncode jsonDecode JVal.jnull hsa id2 body2)
  | createWF db ctx db2 ctx2 hsub ih =>
    intro id seq hg hsa
    exact ih (good_steps_congr (createWF_steps db w) hg)
      (seqat_steps_congr (createWF_steps db w) hsa)
  | updateWF db ctx db2 ctx2 st hsub ih =>
    intro id seq hg hsa
    exact ih (good_steps_congr (updWF_steps db w st) hg)
      (seqat_steps_congr (updWF_steps db w st) hsa)
  | rehydrate db ctx db2 ctx2 hsub ih =>
    intro id seq hg hsa
    exact ih (good_rehydrate hg) (seqat_rehydrate hg hsa)

/-! ### Memo-hit conclusion -/

/-- In any well-formed state where a step is durably memoized, a `Step`
call with that ID returns the memoized value without invoking the body
and without writing to the database. -/
theorem memo_hit {w id : String} {seq : Int} {v : JVal} {db : DB} {ctx : Context}
    (hg : GoodState w db ctx) (hm : MemoAt w id seq v db ctx)
    (body : Unit → JVal × Option String) :
    (stepJ db ctx id body).err = none ∧ (stepJ db ctx id body).val = v ∧
    (stepJ db ctx id body).invoked = false ∧ (stepJ db ctx id body).seq = seq ∧
    (stepJ db ctx id body).db = db := by
  have ha := assignSeq_bound hm.bind
  obtain ⟨r, hr, hwr, hidr, hsr, hkr, hstr, b, hout, hdec⟩ := hm.row
  cases hc : List.lookup (generateStepKey id seq) ctx.completedSteps with
  | some bb =>
    obtain ⟨r2, hr2, hkr2, hstr2, hout2⟩ := hg.cache _ _ hc
    have hr2r : r2 = r := pairwise_eq_of_key hg.uniq hr2 hr (by rw [hkr2, hkr])
    subst hr2r
    have hbb : bb = b := by
      rw [hout] at hout2
      exact (Option.some.inj hout2).symm
    have hdec2 : jsonDecode bb = .ok v := by rw [hbb]; exact hdec
    have hstep : stepJ db ctx id body = ⟨v, none, db, ctx, false, false, seq⟩ := by
      simp only [stepJ, Step, ha, hc, hdec2]
    rw [hstep]
    exact ⟨rfl, rfl, rfl, rfl, rfl⟩
  | none =>
    have hget : GetStep db ctx.WorkflowID (generateStepKey id seq) = some (r.output.getD "") := by
      rw [hg.wfid]
      exact GetStep_hit hg.uniq hr hwr hkr hstr
    have hdec2 : jsonDecode (r.output.getD "") = .ok v := by
      rw [hout]
      exact hdec
    have hstep : stepJ db ctx id body =
        ⟨v, none, db,
          { ctx with completedSteps :=
              (generateStepKey id seq, r.output.getD "") :: ctx.completedSteps },
          false, false, seq⟩ := by
      simp only [stepJ, Step, ha, hc, hget, hdec2]
    rw [hstep]
    exact ⟨rfl, rfl, rfl, rfl, rfl⟩

theorem step_seq_of_bound {T : Type} (enc : T → String) (dec : String → Except String T)
    (zero : T) {db : DB} {ctx : Context} {id : String} {seq : Int}
    (body : Unit → T × Option String)
    (hb : List.lookup id ctx.stepIDToSeq = some seq) :
    (Step enc dec zero db ctx id body).seq = seq :=
  (step_cases enc dec zero db ctx id body (assignSeq_bound hb)).1

/-- The initial state of a workflow: empty database, freshly hydrated
context. -/
theorem good_empty (w : String) : GoodState w emptyDB (newContext w emptyDB) := by
  refine ⟨rfl, List.Pairwise.nil, ?_, ?_, ?_, ?_, ?_, ?_, ?_⟩
  · intro r hr; exact absurd hr (List.not_mem_nil r)
  · intro r hr; exact absurd hr (List.not_mem_nil r)
  · intro r hr; exact absurd hr (List.not_mem_nil r)
  · intro r hr; exact absurd hr (List.not_mem_nil r)
  · intro k b hkb; simp [newContext, LoadCompletedSteps, emptyDB] at hkb
  · intro r hr; exact absurd hr (List.not_mem_nil r)
  · intro id s hl; simp [newContext, LoadStepIDMapping, emptyDB] at hl

/-! ### Claim C1 -/

/-- C1: at-most-once execution of a successful step body: once a `Step`
call with a given ID has returned successfully in a well-formed state,
every later `Step` call with the same ID in that workflow — after any
further step calls, workflow-record updates, or subsequent `Execute`
hydrations (the `Reach` relation) — returns the memoized result without
invoking its body. -/
theorem step_memoized_after_ok (w : String) (db db2 : DB) (ctx ctx2 : Context) (id : String)
    (body body2 : Unit → JVal × Option String)
    (hg : GoodState w db ctx)
    (hok : (stepJ db ctx id body).err = none)
    (hr : Reach w (stepJ db ctx id body).db (stepJ db ctx id body).ctx db2 ctx2) :
    (stepJ db2 ctx2 id body2).err = none ∧
    (stepJ db2 ctx2 id body2).val = (stepJ db ctx id body).val ∧
    (stepJ db2 ctx2 id body2).invoked = false := by
  have hg1 : GoodState w (stepJ db ctx id body).db (stepJ db ctx id body).ctx := by
    simp only [stepJ]
    exact step_good jsonEncode jsonDecode JVal.jnull id body hg
  have hm1 := step_est_memo id body hg hok
  obtain ⟨hg2, hm2⟩ := reach_good_memo hr hg1 hm1
  obtain ⟨he, hv, hi, _, _⟩ := memo_hit hg2 hm2 body2
  exact ⟨he, hv, hi⟩

theorem step_memoized_after_ok_witness :
    (stepJ (stepJ emptyDB (newContext "w" emptyDB) "s" (fun _ => (JVal.jstr "A", none))).db
        (stepJ emptyDB (newContext "w" emptyDB) "s" (fun _ => (JVal.jstr "A", none))).ctx
        "s" (fun _ => (JVal.jstr "B", some "boom"))).err = none ∧
    (stepJ (stepJ emptyDB (newContext "w" emptyDB) "s" (fun _ => (JVal.jstr "A", none))).db
        (stepJ emptyDB (newContext "w" emptyDB) "s" (fun _ => (JVal.jstr "A", none))).ctx
        "s" (fun _ => (JVal.jstr "B", some "boom"))).val =
      (stepJ emptyDB (newContext "w" emptyDB) "s" (fun _ => (JVal.jstr "A", none))).val ∧
    (stepJ (stepJ emptyDB (newContext "w" emptyDB) "s" (fun _ => (JVal.jstr "A", none))).db
        (stepJ emptyDB (newContext "w" emptyDB) "s" (fun _ => (JVal.jstr "A", none))).ctx
        "s" (fun _ => (JVal.jstr "B", some "boom"))).invoked = false :=
  step_memoized_after_ok "w" emptyDB
    (stepJ emptyDB (newContext "w" emptyDB) "s" (fun _ => (JVal.jstr "A", none))).db
    (newContext "w" emptyDB)
    (stepJ emptyDB (newContext "w" emptyDB) "s" (fun _ => (JVal.jstr "A", none))).ctx
    "s" (fun _ => (JVal.jstr "A", none)) (fun _ => (JVal.jstr "B", some "boom"))
    (good_empty "w") rfl (Reach.refl _ _)

/-! ### Claim C4 -/

/-- C4: sequence-number stability: once a `Step` call has assigned a
sequence number to a step ID and invoked the body (so its in-progress
marker carrying the assignment was persisted), every later `Step` call
with the same ID in that workflow — including in a context freshly
hydrated from storage by a subsequent `Execute` — uses the same sequence
number. -/
theorem seq_num_stable (w : String) (db db2 : DB) (ctx ctx2 : Context) (id : String)
    (body body2 : Unit → JVal × Option String)
    (hg : GoodState w db ctx)
    (hinv : (stepJ db ctx id body).invoked = true)
    (hr : Reach w (stepJ db ctx id body).db (stepJ db ctx id body).ctx db2 ctx2) :
    (stepJ db2 ctx2 id body2).seq = (stepJ db ctx id body).seq := by
  have hg1 : GoodState w (stepJ db ctx id body).db (stepJ db ctx id body).ctx := by
    simp only [stepJ]
    exact step_good jsonEncode jsonDecode JVal.jnull id body hg
  have hs1 : SeqAt w id (stepJ db ctx id body).seq
      (stepJ db ctx id body).db (stepJ db ctx id body).ctx := by
    simp only [stepJ]
    exact step_est_seq jsonEncode jsonDecode JVal.jnull id body hg
      (by simpa [stepJ] using hinv)
  obtain ⟨hg2, hs2⟩ := reach_good_seq hr hg1 hs1
  simp only [stepJ]
  exact step_seq_of_bound jsonEncode jsonDecode JVal.jnull body2 hs2.bind

theorem seq_num_stable_witness :
    (stepJ (stepJ emptyDB (newContext "w" emptyDB) "s" (fun _ => (JVal.jint 5, none))).db
        (stepJ emptyDB (newContext "w" emptyDB) "s" (fun _ => (JVal.jint 5, none))).ctx
        "s" (fun _ => (JVal.jint 6, none))).seq =
      (stepJ emptyDB (newContext "w" emptyDB) "s" (fun _ => (JVal.jint 5, none))).seq :=
  seq_num_stable "w" emptyDB
    (stepJ emptyDB (newContext "w" emptyDB) "s" (fun _ => (JVal.jint 5, none))).db
    (newContext "w" emptyDB)
    (stepJ emptyDB (newContext "w" emptyDB) "s" (fun _ => (JVal.jint 5, none))).ctx
    "s" (fun _ => (JVal.jint 5, none)) (fun _ => (JVal.jint 6, none))
    (good_empty "w") rfl (Reach.refl _ _)

/-! ### Claim C5 -/

/-- C5: `GetMaxSequenceNum` is 0 for a workflow with no step records; the
context's sequence counter is seeded on construction to the maximum
persisted sequence number; and in a well-formed state any `Step` call
that assigns a fresh sequence number assigns one strictly greater than
every persisted sequence number of the workflow, so its step key collides
with no existing record's key. -/
theorem seq_counter_spec (w : String) (db0 db : DB) (ctx : Context) (id : String)
    (body : Unit → JVal × Option String) :
    ((∀ r ∈ db0.steps, r.workflow_id ≠ w) → GetMaxSequenceNum db0 w = 0) ∧
    (newContext w db0).sequenceNum = GetMaxSequenceNum db0 w ∧
    (GoodState w db ctx → (stepJ db ctx id body).fresh = true →
      ∀ r ∈ db.steps, r.sequence_num < (stepJ db ctx id body).seq ∧
        r.step_key ≠ generateStepKey id (stepJ db ctx id body).seq) := by
  refine ⟨?_, rfl, ?_⟩
  · intro h
    rw [GetMaxSequenceNum]
    have hfil : db0.steps.filter (fun x => decide (x.workflow_id = w)) = [] := by
      rw [List.filter_eq_nil_iff]
      intro r hr
      simp [h r hr]
    rw [hfil]
  · intro hg hfresh
    simp only [stepJ] at hfresh ⊢
    rcases ha : assignSeq ctx id with ⟨seq, fresh, ctx1⟩
    obtain ⟨hA1, hA2, hA3, hA4, hA5, hA6, hA7, hA8⟩ := assignSeq_shape ha
    obtain ⟨hseqo, hfro, _⟩ := step_cases jsonEncode jsonDecode JVal.jnull db ctx id body ha
    rw [hseqo]
    have hft : fresh = true := by rw [← hfro]; exact hfresh
    obtain ⟨hnone, hseqc, _⟩ := hA7 hft
    intro r hr
    constructor
    · rw [hseqc]
      have := hg.rowSeqLe r hr
      omega
    · intro hkey
      have hk2 := hg.keyed r hr
      have hinj := generateStepKey_inj (hk2.symm.trans hkey)
      have h3 := hinj.2
      have h4 := hg.rowSeqLe r hr
      rw [hseqc] at h3
      omega

theorem seq_counter_spec_witness :
    GetMaxSequenceNum emptyDB "w" = 0 ∧
    (newContext "w" emptyDB).sequenceNum = GetMaxSequenceNum emptyDB "w" ∧
    ∀ r ∈ emptyDB.steps,
      r.sequence_num <
        (stepJ emptyDB (newContext "w" emptyDB) "s" (fun _ => (JVal.jnull, none))).seq ∧
      r.step_key ≠ generateStepKey "s"
        (stepJ emptyDB (newContext "w" emptyDB) "s" (fun _ => (JVal.jnull, none))).seq := by
  have h := seq_counter_spec "w" emptyDB emptyDB (newContext "w" emptyDB) "s"
    (fun _ => (JVal.jnull, none))
  exact ⟨h.1 (fun r hr => absurd hr (List.not_mem_nil r)), h.2.1,
    h.2.2 (good_empty "w") rfl⟩

/-! ### Dynamic codec round-trip lemmas -/

theorem scanStr_escape : ∀ (l rest : List Char),
    scanStr (escapeStr l ++ '"' :: rest) = some (l, rest) := by
  intro l
  induction l with
  | nil =>
    intro rest
    simp only [escapeStr, List.nil_append]
    rw [scanStr.eq_def]
    simp
  | cons c cs ih =>
    intro rest
    by_cases hc : c = '"' ∨ c = '\\'
    · rw [escapeStr, escapeChar, if_pos hc]
      simp [scanStr, ih]
    · rw [escapeStr, escapeChar, if_neg hc]
      push_neg at hc
      rw [scanStr.eq_def]
      simp [hc.1, hc.2, ih]

theorem scanDigits_spec : ∀ (ds rest : List Char),
    (∀ c ∈ ds, isDig c = true) → notDigStart rest →
    scanDigits (ds ++ rest) = (ds, rest) := by
  intro ds
  induction ds with
  | nil =>
    intro rest _ hrest
    cases rest with
    | nil => simp [scanDigits]
    | cons c r =>
      have hcd : isDig c = false := hrest
      simp [scanDigits, hcd]
  | cons d ds2 ih =>
    intro rest hds hrest
    have hd : isDig d = true := hds d (List.mem_cons_self _ _)
    simp only [List.cons_append]
    simp [scanDigits, hd, ih rest (fun c hc => hds c (List.mem_cons_of_mem _ hc)) hrest]

theorem isDig_ne_more (c : Char) (h : isDig c = true) :
    c ≠ 'n' ∧ c ≠ 't' ∧ c ≠ 'f' ∧ c ≠ '"' ∧ c ≠ '[' ∧ c ≠ lbrace ∧ c ≠ '-' ∧ c ≠ ']' := by
  refine ⟨?_, ?_, ?_, ?_, ?_, ?_, ?_, ?_⟩ <;> intro he <;> rw [he] at h <;>
    exact absurd h (by decide)

theorem intDec_ne_nil (i : Int) : intDec i ≠ [] := by
  unfold intDec
  split
  · simp
  · exact natDigits_ne_nil _

theorem intDec_cons (i : Int) :
    ∃ c cs, intDec i = c :: cs ∧ (c = '-' ∨ isDig c = true) := by
  unfold intDec
  split
  · exact ⟨'-', _, rfl, Or.inl rfl⟩
  · cases h : natDigits i.toNat with
    | nil => exact absurd h (natDigits_ne_nil _)
    | cons c cs =>
      exact ⟨c, cs, rfl,
        Or.inr (natDigits_all_dig _ c (by rw [h]; exact List.mem_cons_self c cs))⟩

theorem goEncode_cons (v : GoVal) : ∃ c cs, goEncode v = c :: cs ∧ c ≠ ']' := by
  cases v with
  | gnull => exact ⟨'n', ['u', 'l', 'l'], by simp [goEncode], by decide⟩
  | gbool b =>
    cases b with
    | false => exact ⟨'f', ['a', 'l', 's', 'e'], by simp [goEncode], by decide⟩
    | true => exact ⟨'t', ['r', 'u', 'e'], by simp [goEncode], by decide⟩
  | gint i =>
    obtain ⟨c, cs, he, hc⟩ := intDec_cons i
    refine ⟨c, cs, by simp [goEncode, he], ?_⟩
    rcases hc with h1 | h1
    · rw [h1]; decide
    · intro he2; rw [he2] at h1; exact absurd h1 (by decide)
  | gnum i =>
    obtain ⟨c, cs, he, hc⟩ := intDec_cons i
    refine ⟨c, cs, by simp [goEncode, he], ?_⟩
    rcases hc with h1 | h1
    · rw [h1]; decide
    · intro he2; rw [he2] at h1; exact absurd h1 (by decide)
  | gstr s => exact ⟨'"', escapeStr s.data ++ ['"'], by simp [goEncode], by decide⟩
  | garr a =>
    cases a with
    | anil => exact ⟨'[', [']'], by simp [goEncode], by decide⟩
    | acons v2 tl => exact ⟨'[', goEncode v2 ++ goEncArr tl, by simp [goEncode], by decide⟩
  | gobj o =>
    cases o with
    | onil => exact ⟨lbrace, [rbrace], by simp [goEncode], by decide⟩
    | ocons k v2 tl =>
      exact ⟨lbrace, '"' :: (escapeStr k.data ++ '"' :: ':' :: (goEncode v2 ++ goEncObj tl)),
        by simp [goEncode], by decide⟩

theorem notDig_encArr (tl : GoArr) (rest : List Char) :
    notDigStart (goEncArr tl ++ rest) := by
  cases tl with
  | anil =>
    rw [show goEncArr .anil = [']'] from by simp [goEncArr]]
    show isDig ']' = false
    decide
  | acons v tl2 =>
    rw [show goEncArr (.acons v tl2) = ',' :: (goEncode v ++ goEncArr tl2) from by
      simp [goEncArr]]
    show isDig ',' = false
    decide

theorem notDig_encObj (tl : GoObj) (rest : List Char) :
    notDigStart (goEncObj tl ++ rest) := by
  cases tl with
  | onil =>
    rw [show goEncObj .onil = [rbrace] from by simp [goEncObj]]
    show isDig rbrace = false
    decide
  | ocons k v tl2 =>
    rw [show goEncObj (.ocons k v tl2) =
        ',' :: ('"' :: (escapeStr k.data ++ '"' :: ':' :: (goEncode v ++ goEncObj tl2))) from by
      simp [goEncObj]]
    show isDig ',' = false
    decide

theorem sizeV_pos (v : GoVal) : 1 ≤ sizeV v := by
  cases v with
  | gnull => simp [sizeV]
  | gbool b => simp [sizeV]
  | gint i => simp [sizeV]
  | gnum i => simp [sizeV]
  | gstr s => simp [sizeV]
  | garr a => cases a <;> simp [sizeV]
  | gobj o => cases o <;> simp [sizeV]

theorem sizeA_pos (a : GoArr) : 1 ≤ sizeA a := by
  cases a <;> simp [sizeA]

theorem sizeO_pos (o : GoObj) : 1 ≤ sizeO o := by
  cases o <;> simp [sizeO]

mutual
theorem sizeV_le_len : ∀ v : GoVal, sizeV v ≤ (goEncode v).length
  | .gnull => by simp [sizeV, goEncode]
  | .gbool b => by cases b <;> simp [sizeV, goEncode]
  | .gint i => by
    have h1 : 0 < (intDec i).length := List.length_pos.mpr (intDec_ne_nil i)
    simp only [sizeV, goEncode]
    omega
  | .gnum i => by
    have h1 : 0 < (intDec i).length := List.length_pos.mpr (intDec_ne_nil i)
    simp only [sizeV, goEncode]
    omega
  | .gstr s => by simp [sizeV, goEncode]
  | .garr .anil => by simp [sizeV, goEncode]
  | .garr (.acons v tl) => by
    have h1 := sizeV_le_len v
    have h2 := sizeA_le_len tl
    simp only [sizeV, goEncode, List.length_cons, List.length_append]
    omega
  | .gobj .onil => by simp [sizeV, goEncode]
  | .gobj (.ocons k v tl) => by
    have h1 := sizeV_le_len v
    have h2 := sizeO_le_len tl
    simp only [sizeV, goEncode, List.length_cons, List.length_append]
    omega

theorem sizeA_le_len : ∀ a : GoArr, sizeA a ≤ (goEncArr a).length
  | .anil => by simp [sizeA, goEncArr]
  | .acons v tl => by
    have h1 := sizeV_le_len v
    have h2 := sizeA_le_len tl
    simp only [sizeA, goEncArr, List.length_cons, List.length_append]
    omega

theorem sizeO_le_len : ∀ o : GoObj, sizeO o ≤ (goEncObj o).length
  | .onil => by simp [sizeO, goEncObj]
  | .ocons k v tl => by
    have h1 := sizeV_le_len v
    have h2 := sizeO_le_len tl
    simp only [sizeO, goEncObj, List.length_cons, List.length_append]
    omega
end

theorem dropLit_self : ∀ (lit rest : List Char), dropLit lit (lit ++ rest) = some rest := by
  intro lit
  induction lit with
  | nil => intro rest; rfl
  | cons c cs ih => intro rest; simp [dropLit, ih]

theorem goParsers_spec : ∀ fuel : Nat,
    (∀ (v : GoVal) (rest : List Char), canonV v = true → sizeV v ≤ fuel → notDigStart rest →
      (goParsers fuel).pV (goEncode v ++ rest) = some (v, rest)) ∧
    (∀ (a : GoArr) (rest : List Char), canonA a = true → sizeA a ≤ fuel →
      (goParsers fuel).pA (goEncArr a ++ rest) = some (a, rest)) ∧
    (∀ (k : String) (v : GoVal) (rest : List Char), canonV v = true → 1 + sizeV v ≤ fuel →
      notDigStart rest →
      (goParsers fuel).pM (('"' :: (escapeStr k.data ++ '"' :: ':' :: goEncode v)) ++ rest)
        = some ((k, v), rest)) ∧
    (∀ (o : GoObj) (rest : List Char), canonO o = true → sizeO o ≤ fuel →
      (goParsers fuel).pO (goEncObj o ++ rest) = some (o, rest)) := by
  intro fuel
  induction fuel with
  | zero =>
    refine ⟨?_, ?_, ?_, ?_⟩
    · intro v rest _ hsz _
      exact absurd hsz (by have := sizeV_pos v; omega)
    · intro a rest _ hsz
      exact absurd hsz (by have := sizeA_pos a; omega)
    · intro k v rest _ hsz _
      exact absurd hsz (by have := sizeV_pos v; omega)
    · intro o rest _ hsz
      exact absurd hsz (by have := sizeO_pos o; omega)
  | succ f ih =>
    obtain ⟨ihV, ihA, ihM, ihO⟩ := ih
    refine ⟨?_, ?_, ?_, ?_⟩
    · intro v rest hcan hsz hrest
      cases v with
      | gnull =>
        rw [show goEncode .gnull = ['n', 'u', 'l', 'l'] from by simp [goEncode]]
        simp [goParsers, goStepV]
        exact dropLit_self ['u', 'l', 'l'] rest
      | gbool b =>
        cases b with
        | true =>
          rw [show goEncode (.gbool true) = ['t', 'r', 'u', 'e'] from by simp [goEncode]]
          simp [goParsers, goStepV]
          exact dropLit_self ['r', 'u', 'e'] rest
        | false =>
          rw [show goEncode (.gbool false) = ['f', 'a', 'l', 's', 'e'] from by simp [goEncode]]
          simp [goParsers, goStepV]
          exact dropLit_self ['a', 'l', 's', 'e'] rest
      | gint i => simp [canonV] at hcan
      | gnum i =>
        rw [show goEncode (.gnum i) = intDec i from by simp [goEncode]]
        by_cases hneg : i < 0
        · rw [show intDec i = '-' :: natDigits (-i).toNat from by rw [intDec, if_pos hneg]]
          have hsd : scanDigits (natDigits (-i).toNat ++ rest) = (natDigits (-i).toNat, rest) :=
            scanDigits_spec _ rest (natDigits_all_dig _) hrest
          simp only [List.cons_append]
          simp [goParsers, goStepV, lbrace, hsd, List.isEmpty_iff, natDigits_ne_nil,
            digitsVal_natDigits]
          omega
        · rw [show intDec i = natDigits i.toNat from by rw [intDec, if_neg hneg]]
          cases h : natDigits i.toNat with
          | nil => exact absurd h (natDigits_ne_nil _)
          | cons c cs =>
            have hd : isDig c = true :=
              natDigits_all_dig _ c (by rw [h]; exact List.mem_cons_self c cs)
            obtain ⟨hn, ht, hf, hq, hbr, hlb, hmi, _⟩ := isDig_ne_more c hd
            have hds : ∀ d ∈ c :: cs, isDig d = true := by
              rw [← h]; exact natDigits_all_dig _
            have hsd : scanDigits (c :: (cs ++ rest)) = (c :: cs, rest) :=
              scanDigits_spec (c :: cs) rest hds hrest
            have hdv : digitsVal (c :: cs) = i.toNat := by
              rw [← h]; exact digitsVal_natDigits _
            simp only [List.cons_append]
            simp [goParsers, goStepV, hn, ht, hf, hq, hbr, hlb, hmi, hd, hsd, hdv]
            omega
      | gstr s =>
        rw [show goEncode (.gstr s) = '"' :: (escapeStr s.data ++ ['"']) from by
          simp [goEncode]]
        have h1 : ('"' :: (escapeStr s.data ++ ['"'])) ++ rest
            = '"' :: (escapeStr s.data ++ '"' :: rest) := by simp
        rw [h1]
        simp [goParsers, goStepV, scanStr_escape]
      | garr a =>
        cases a with
        | anil =>
          rw [show goEncode (.garr .anil) = ['[', ']'] from by simp [goEncode]]
          simp [goParsers, goStepV]
        | acons v1 tl =>
          have hcan2 : canonV v1 = true ∧ canonA tl = true := by
            simpa [canonV, canonA] using hcan
          have hsz2 : sizeV v1 ≤ f ∧ sizeA tl ≤ f := by
            have h2 : sizeV (.garr (.acons v1 tl)) = 1 + max (sizeV v1) (sizeA tl) := by
              simp [sizeV]
            rw [h2] at hsz
            omega
          have hIV := ihV v1 (goEncArr tl ++ rest) hcan2.1 hsz2.1 (notDig_encArr tl rest)
          have hIA := ihA tl rest hcan2.2 hsz2.2
          rw [show goEncode (.garr (.acons v1 tl)) = '[' :: (goEncode v1 ++ goEncArr tl)
            from by simp [goEncode]]
          obtain ⟨c0, cs0, he, hcb⟩ := goEncode_cons v1
          rw [he] at hIV ⊢
          simp only [List.cons_append, List.append_assoc] at hIV ⊢
          simp [goParsers, goStepV, hcb, hIV, hIA]
      | gobj o =>
        cases o with
        | onil =>
          rw [show goEncode (.gobj .onil) = [lbrace, rbrace] from by simp [goEncode]]
          simp [goParsers, goStepV, lbrace, rbrace]
        | ocons k v1 tl =>
          have hcan2 : canonV v1 = true ∧ canonO tl = true := by
            simpa [canonV, canonO] using hcan
          have hsz2 : 1 + sizeV v1 ≤ f ∧ sizeO tl ≤ f := by
            have h2 : sizeV (.gobj (.ocons k v1 tl)) = 1 + max (1 + sizeV v1) (sizeO tl) := by
              simp [sizeV]
            rw [h2] at hsz
            omega
          have hIM := ihM k v1 (goEncObj tl ++ rest) hcan2.1 hsz2.1 (notDig_encObj tl rest)
          have hIO := ihO tl rest hcan2.2 hsz2.2
          rw [show goEncode (.gobj (.ocons k v1 tl))
              = lbrace :: ('"' :: (escapeStr k.data ++ '"' :: ':' :: (goEncode v1 ++ goEncObj tl)))
            from by simp [goEncode]]
          simp only [List.cons_append, List.append_assoc] at hIM ⊢
          simp [goParsers, goStepV, lbrace, rbrace, hIM, hIO]
    · intro a rest hcan hsz
      cases a with
      | anil =>
        rw [show goEncArr .anil = [']'] from by simp [goEncArr]]
        simp [goParsers, goStepA]
      | acons v1 tl =>
        have hcan2 : canonV v1 = true ∧ canonA tl = true := by
          simpa [canonA] using hcan
        have hsz2 : sizeV v1 ≤ f ∧ sizeA tl ≤ f := by
          have h2 : sizeA (.acons v1 tl) = 1 + max (sizeV v1) (sizeA tl) := by simp [sizeA]
          rw [h2] at hsz
          omega
        have hIV := ihV v1 (goEncArr tl ++ rest) hcan2.1 hsz2.1 (notDig_encArr tl rest)
        have hIA := ihA tl rest hcan2.2 hsz2.2
        rw [show goEncArr (.acons v1 tl) = ',' :: (goEncode v1 ++ goEncArr tl) from by
          simp [goEncArr]]
        simp only [List.cons_append, List.append_assoc] at hIV ⊢
        simp [goParsers, goStepA, hIV, hIA]
    · intro k v rest hcan hsz hrest
      have hIV := ihV v rest hcan (by omega) hrest
      have h1 : ('"' :: (escapeStr k.data ++ '"' :: ':' :: goEncode v)) ++ rest
          = '"' :: (escapeStr k.data ++ '"' :: (':' :: (goEncode v ++ rest))) := by simp
      rw [h1]
      simp [goParsers, goStepM, scanStr_escape, hIV]
    · intro o rest hcan hsz
      cases o with
      | onil =>
        rw [show goEncObj .onil = [rbrace] from by simp [goEncObj]]
        simp [goParsers, goStepO]
      | ocons k v1 tl =>
        have hcan2 : canonV v1 = true ∧ canonO tl = true := by
          simpa [canonO] using hcan
        have hsz2 : 1 + sizeV v1 ≤ f ∧ sizeO tl ≤ f := by
          have h2 : sizeO (.ocons k v1 tl) = 1 + max (1 + sizeV v1) (sizeO tl) := by simp [sizeO]
          rw [h2] at hsz
          omega
        have hIM := ihM k v1 (goEncObj tl ++ rest) hcan2.1 hsz2.1 (notDig_encObj tl rest)
        have hIO := ihO tl rest hcan2.2 hsz2.2
        rw [show goEncObj (.ocons k v1 tl)
            = ',' :: ('"' :: (escapeStr k.data ++ '"' :: ':' :: (goEncode v1 ++ goEncObj tl)))
          from by simp [goEncObj]]
        simp only [List.cons_append, List.append_assoc] at hIM ⊢
        simp [goParsers, goStepO, rbrace, hIM, hIO]

theorem goDecode_encode_canon (v : GoVal) (hcan : canonV v = true) :
    goDecode (goEncodeS v) = .ok v := by
  have h1 := (goParsers_spec ((goEncode v).length + 1)).1 v [] hcan
    (by have := sizeV_le_len v; omega) trivial
  rw [show goEncode v ++ ([] : List Char) = goEncode v from by simp] at h1
  simp [goDecode, goEncodeS, goParse, h1]

theorem metadata_enc_eq : goEncodeS metadataVal = goEncodeS metadataValDecoded := by
  simp [goEncodeS, metadataVal, metadataValDecoded, goEncode, goEncObj]

theorem canon_metadataValDecoded : canonV metadataValDecoded = true := by
  simp [metadataValDecoded, canonV, canonO]

/-- The repository's `get-metadata` value — a `map[string]interface`
holding the Go `int` `42` — does not round-trip through the codec:
`json.Unmarshal` gives the number back as a `float64`. -/
theorem codec_not_round_trip_metadata :
    goDecode (goEncodeS metadataVal) ≠ .ok metadataVal := by
  rw [metadata_enc_eq, goDecode_encode_canon metadataValDecoded canon_metadataValDecoded]
  intro h
  simp [metadataVal, metadataValDecoded] at h

/-! ### Claim C9 -/

/-- C9 (corrected): the codec round-trips exactly on values in decoded
(canonical) form.  Results decoded at their own atomic types round-trip
(`jsonDecode (jsonEncode v) = .ok v` for every atom `v`), and a dynamic
value round-trips whenever every number in it is a `float64`
(`canonV`); but a Go `int` in a dynamic position comes back as a
`float64`, so for the repository's `get-metadata` map the decode
returns the `float64` form of the value, not the value itself (the
refutation of the unrestricted claim is `codec_not_round_trip_metadata`). -/
theorem codec_round_trip_canonical :
    (∀ v : JVal, jsonDecode (jsonEncode v) = .ok v) ∧
    (∀ g : GoVal, canonV g = true → goDecode (goEncodeS g) = .ok g) ∧
    goDecode (goEncodeS metadataVal) = .ok metadataValDecoded := by
  refine ⟨decode_encode, fun g hg => goDecode_encode_canon g hg, ?_⟩
  rw [metadata_enc_eq]
  exact goDecode_encode_canon metadataValDecoded canon_metadataValDecoded

/-- Witness: a concrete canonical composite value — the array
`[7.0, "x"]` — round-trips through the dynamic codec. -/
theorem codec_round_trip_canonical_witness :
    canonV (.garr (.acons (.gnum 7) (.acons (.gstr "x") .anil))) = true ∧
    goDecode (goEncodeS (.garr (.acons (.gnum 7) (.acons (.gstr "x") .anil))))
      = .ok (.garr (.acons (.gnum 7) (.acons (.gstr "x") .anil))) :=
  ⟨by simp [canonV, canonA], codec_round_trip_canonical.2.1
    (.garr (.acons (.gnum 7) (.acons (.gstr "x") .anil))) (by simp [canonV, canonA])⟩
